import Mathlib

/-!
Verification of the threshold secret-sharing core of the zk-thresh-pro
repository.  The scalar field of the curve (prime order well above 2^64) is
modelled as an arbitrary decidable field `F`; facts that hold in the real
scalar field because indices fit in 64 bits (the natural-number cast is
injective and non-zero on share indices) appear as explicit hypotheses.
Rust `usize` index values are modelled as `Nat`; a `usize` subtraction that
can underflow is modelled explicitly where it matters.  Functions that can
panic return `Option`.
-/

namespace ZkThresh

deriving instance DecidableEq for Except

/-- Error enum of src/lagrange_fft.rs (`LagrangeError`). -/
inductive LagrangeError where
  | InsufficientShares (needed provided : ℕ)
  | InvalidShareIndex (index : ℕ)
  | DuplicateShareIndex (index : ℕ)
  | ZeroDerivative (index : ℕ)
  | PolynomialDegreeTooHigh (degree : ℕ)
  | NumericalInstability
deriving DecidableEq

/-- Share record of src/sharing.rs (`ShareData`).  The commitment, blinding
random and proof fields live in the repository modules `proof.rs` and
`utils.rs`, which are not part of the excerpt; no claim under verification
mentions them, so only the index and the share value are modelled. -/
structure ShareData (F : Type*) where
  index : ℕ
  share : F
deriving DecidableEq

variable {F : Type*} [Field F] [DecidableEq F]

/-- Polynomial addition (`poly_add` in src/lagrange_fft.rs): coefficient-wise
with zero padding up to the longer length. -/
def poly_add (a b : List F) : List F :=
  (List.range (max a.length b.length)).map (fun i => a.getD i 0 + b.getD i 0)

/-- Polynomial subtraction (`poly_sub` in src/lagrange_fft.rs). -/
def poly_sub (a b : List F) : List F :=
  (List.range (max a.length b.length)).map (fun i => a.getD i 0 - b.getD i 0)

/-- Schoolbook multiplication (`naive_mul` in src/lagrange_fft.rs).  The Rust
double loop accumulates `a[i] * b[j]` into entry `i + j` of a vector of
length `a.len() + b.len() - 1`; entry `k` of the result is the closed form
of that accumulation.  The Rust length computation underflows when both
inputs are empty (the caller `poly_mul` models that case); here natural
subtraction yields the empty list. -/
def naive_mul (a b : List F) : List F :=
  (List.range (a.length + b.length - 1)).map (fun k =>
    ∑ i ∈ Finset.range a.length,
      if i ≤ k then a.getD i 0 * b.getD (k - i) 0 else 0)

/-- The combination step shared by `karatsuba_mul` and
`parallel_karatsuba_mul`: a vector of length `len` whose entry `i` receives
`z0[i]`, `z1[i - m]` and `z2[i - 2m]` whenever those indices are in range.
Both Rust combine loops compute exactly this entry-wise value. -/
def combine (len m : ℕ) (z0 z1 z2 : List F) : List F :=
  (List.range len).map (fun i =>
    z0.getD i 0 + (if m ≤ i then z1.getD (i - m) 0 else 0)
      + (if 2 * m ≤ i then z2.getD (i - 2 * m) 0 else 0))

/-- Karatsuba multiplication (`karatsuba_mul` in src/lagrange_fft.rs).
`a[..a.len().min(m)]` is `a.take m` and the high slice is `a.drop m`. -/
def karatsuba_mul (a b : List F) : List F :=
  if max a.length b.length ≤ 32 then naive_mul a b
  else
    combine (a.length + b.length - 1) (max a.length b.length / 2)
      (karatsuba_mul (a.take (max a.length b.length / 2)) (b.take (max a.length b.length / 2)))
      (poly_sub (poly_sub
        (karatsuba_mul
          (poly_add (a.take (max a.length b.length / 2)) (a.drop (max a.length b.length / 2)))
          (poly_add (b.take (max a.length b.length / 2)) (b.drop (max a.length b.length / 2))))
        (karatsuba_mul (a.take (max a.length b.length / 2)) (b.take (max a.length b.length / 2))))
        (karatsuba_mul (a.drop (max a.length b.length / 2)) (b.drop (max a.length b.length / 2))))
      (karatsuba_mul (a.drop (max a.length b.length / 2)) (b.drop (max a.length b.length / 2)))
termination_by a.length + b.length
decreasing_by
  all_goals simp only [List.length_take, List.length_drop, poly_add, List.length_map,
    List.length_range]
  all_goals omega

/-- Parallel Karatsuba (`parallel_karatsuba_mul` in src/lagrange_fft.rs).
`rayon::join` computes both recursive products; the result is deterministic,
so the embedding is sequential. -/
def parallel_karatsuba_mul (a b : List F) : List F :=
  if max a.length b.length ≤ 1024 then karatsuba_mul a b
  else
    combine (a.length + b.length - 1) (max a.length b.length / 2)
      (parallel_karatsuba_mul (a.take (max a.length b.length / 2))
        (b.take (max a.length b.length / 2)))
      (poly_sub (poly_sub
        (parallel_karatsuba_mul
          (poly_add (a.take (max a.length b.length / 2)) (a.drop (max a.length b.length / 2)))
          (poly_add (b.take (max a.length b.length / 2)) (b.drop (max a.length b.length / 2))))
        (parallel_karatsuba_mul (a.take (max a.length b.length / 2))
          (b.take (max a.length b.length / 2))))
        (parallel_karatsuba_mul (a.drop (max a.length b.length / 2))
          (b.drop (max a.length b.length / 2))))
      (parallel_karatsuba_mul (a.drop (max a.length b.length / 2))
        (b.drop (max a.length b.length / 2)))
termination_by a.length + b.length
decreasing_by
  all_goals simp only [List.length_take, List.length_drop, poly_add, List.length_map,
    List.length_range]
  all_goals omega

/-- Dispatching multiplication (`poly_mul` in src/lagrange_fft.rs).  The Rust
code first computes `result_len = a.len() + b.len() - 1` in `usize`; when both
inputs are empty this subtraction underflows and the call panics (debug) or
requests an absurd allocation (release), so no value is returned: that case
is `none`. -/
def poly_mul (a b : List F) : Option (List F) :=
  if a.length + b.length = 0 then none
  else
    let result_len := a.length + b.length - 1
    some (if result_len ≤ 64 then naive_mul a b
      else if result_len ≤ 1024 then karatsuba_mul a b
      else parallel_karatsuba_mul a b)

/-- Product of many polynomials (`poly_product` in src/lagrange_fft.rs):
balanced divide-and-conquer.  A panic inside `poly_mul` propagates. -/
def poly_product : List (List F) → Option (List F)
  | [] => some [(1 : F)]
  | [p] => some p
  | [p, q] => poly_mul p q
  | p :: q :: r :: rest =>
    (poly_product ((p :: q :: r :: rest).take ((p :: q :: r :: rest).length / 2))).bind
      (fun left =>
        (poly_product ((p :: q :: r :: rest).drop ((p :: q :: r :: rest).length / 2))).bind
          (fun right => poly_mul left right))
termination_by ps => ps.length
decreasing_by
  all_goals simp only [List.length_take, List.length_drop, List.length_cons]
  all_goals omega

/-- Formal derivative (`poly_derivative` in src/lagrange_fft.rs): coefficient
`j` of the result is `(j + 1) * p[j + 1]`; the length-at-most-one case yields
the single-entry zero list.  `Scalar::from(i as u64)` is the natural-number
cast (list lengths stay far below 2^64). -/
def poly_derivative (p : List F) : List F :=
  if p.length ≤ 1 then [0]
  else (List.range (p.length - 1)).map (fun j => ((j + 1 : ℕ) : F) * p.getD (j + 1) 0)

/-- Horner evaluation (`poly_evaluate` in src/lagrange_fft.rs). -/
def poly_evaluate (p : List F) (x : F) : F :=
  if p.isEmpty then 0
  else p.reverse.foldl (fun acc c => acc * x + c) 0

/-- Duplicate scan of `compute_lagrange_coefficients`: the Rust code inserts
`value -> position` into a `HashMap` and stops at the first position whose
value was already present, reporting the stored earlier position. -/
def dup_scan : List (F × ℕ) → List (F × ℕ) → Option ℕ
  | _, [] => none
  | seen, (x, i) :: rest =>
    match seen.lookup x with
    | some prev => some prev
    | none => dup_scan ((x, i) :: seen) rest

/-- Inner loop of `compute_lagrange_coefficients`: running over all pairs
`(j, x_j)` with `j ≠ i`, multiply the numerator by `x_j` and the denominator
by `x_i - x_j`, stopping with `DuplicateShareIndex (i + 1)` on a zero
difference. -/
def lagrange_inner (xi : F) (i : ℕ) : List (ℕ × F) → F → F → Except LagrangeError (F × F)
  | [], num, den => .ok (num, den)
  | (j, xj) :: rest, num, den =>
    if i = j then lagrange_inner xi i rest num den
    else
      let num2 := num * xj
      if xi - xj = 0 then .error (.DuplicateShareIndex (i + 1))
      else lagrange_inner xi i rest num2 (den * (xi - xj))

/-- Outer loop of `compute_lagrange_coefficients`: one coefficient
`sign * numerator * denominator⁻¹` per position, with the zero-denominator
guard reporting `ZeroDerivative (i + 1)`. -/
def lagrange_outer (indices : List F) (sign : F) : List (ℕ × F) → Except LagrangeError (List F)
  | [] => .ok []
  | (i, xi) :: rest =>
    match lagrange_inner xi i indices.enum 1 1 with
    | .error e => .error e
    | .ok (num, den) =>
      if den = 0 then .error (.ZeroDerivative (i + 1))
      else
        match lagrange_outer indices sign rest with
        | .error e => .error e
        | .ok tail => .ok (sign * num * den⁻¹ :: tail)

/-- Lagrange coefficients at zero (`compute_lagrange_coefficients` in
src/lagrange_fft.rs). -/
def compute_lagrange_coefficients (indices : List F) : Except LagrangeError (List F) :=
  if indices = [] then .error (.InsufficientShares 1 0)
  else
    match dup_scan [] (indices.enum.map (fun p => (p.2, p.1))) with
    | some prev => .error (.DuplicateShareIndex (prev + 1))
    | none =>
      let m := indices.length
      let sign : F := if (m - 1) % 2 = 0 then 1 else -1
      lagrange_outer indices sign indices.enum

/-- Accumulation loop of `recover_secret_fft`: for each share with field
index `x_i`, check `Q'(x_i) ≠ 0` and add
`share * (-q0 * (x_i * Q'(x_i))⁻¹)` to the running secret. -/
def recover_loop (q0 : F) (qder : List F) : List (ShareData F) → F → Except LagrangeError F
  | [], secret => .ok secret
  | s :: rest, secret =>
    let xi : F := (s.index : F)
    let qi := poly_evaluate qder xi
    if qi = 0 then .error (.ZeroDerivative s.index)
    else recover_loop q0 qder rest (secret + s.share * (-q0 * (xi * qi)⁻¹))

/-- Secret recovery (`recover_secret_fft` in src/lagrange_fft.rs).  The flow
is: empty check; rejection of any zero index; the (unreachable) direct-secret
branch over the shares with index zero; then `Q(x) = ∏ (x - x_i)` via
`poly_product`, `q0 = Q(0)` (first coefficient), the formal derivative, and
the accumulation loop.  A panic inside `poly_product` would surface as
`none`. -/
def recover_secret_fft (shares : List (ShareData F)) : Option (Except LagrangeError F) :=
  if shares.isEmpty then some (.error (.InsufficientShares 1 0))
  else if ∃ s ∈ shares, s.index = 0 then some (.error (.InvalidShareIndex 0))
  else if ¬ (shares.filter (fun (s : ShareData F) => s.index == 0)).isEmpty then
    if ∃ s ∈ shares.filter (fun (s : ShareData F) => s.index == 0),
        s.share ≠ ((shares.filter (fun (s : ShareData F) => s.index == 0)).headD
          ⟨0, 0⟩).share then
      some (.error .NumericalInstability)
    else some (.ok ((shares.filter (fun (s : ShareData F) => s.index == 0)).headD ⟨0, 0⟩).share)
  else
    (poly_product ((shares.map (fun s => ((s.index : ℕ) : F))).map (fun x => [-x, 1]))).map
      (fun q_poly =>
        recover_loop (if ¬ q_poly.isEmpty then q_poly.getD 0 0 else 1)
          (poly_derivative q_poly) shares 0)

/-- Scalar power, `utils::pow_scalar`.  Modelled from the spec: utils.rs is
not part of the excerpt; section 4.A specifies scalar power with a
non-negative integer exponent by repeated squaring, which computes `x ^ k`. -/
def pow_scalar (x : F) (k : ℕ) : F := x ^ k

/-- Share issuance (`generate_key_shares` in src/sharing.rs).  The randomly
drawn non-constant coefficients (`threshold - 1` many in Rust) enter as the
explicit list `coeffs`; share `i` carries
`secret + Σ coeffs[j] * x ^ (j + 1)` at `x = i`, exactly the Rust
accumulation loop.  Commitment, blinding and proof are built in the missing
`proof.rs`/`utils.rs` modules and are not modelled. -/
def generate_key_shares (secret : F) (coeffs : List F) (n : ℕ) : List (ShareData F) :=
  (List.range' 1 n).map (fun (i : ℕ) =>
    let x : F := (i : F)
    ⟨i, coeffs.enum.foldl (fun acc jc => acc + jc.2 * pow_scalar x (jc.1 + 1)) secret⟩)

/-- Proactive refresh (`update_shares` in src/sharing.rs): each share gains
the value at its index of the zero-constant polynomial with the freshly
drawn coefficients `update_coeffs` (`threshold - 1` many in Rust). -/
def update_shares (shares : List (ShareData F)) (update_coeffs : List F) : List (ShareData F) :=
  shares.map (fun sd =>
    let x : F := (sd.index : F)
    ⟨sd.index,
      sd.share + update_coeffs.enum.foldl (fun acc jc => acc + jc.2 * pow_scalar x (jc.1 + 1)) 0⟩)

/-- Ascending-powers evaluation loop used by `adjust_threshold` (sharing.rs)
and `mpc_generate_key_shares` (mpc.rs): `value += coeff * x_pow; x_pow *= x`. -/
def eval_powers (coeffs : List F) (x : F) : F :=
  (coeffs.foldl (fun p c => (p.1 + c * p.2, p.2 * x)) ((0 : F), (1 : F))).1

/-- Distributed resharing (`adjust_threshold` in src/sharing.rs).  Contributor
`i` (position in `existing`) uses the fresh random coefficients `A i`
(`new_threshold - 1` many in Rust) above the constant term
`lambda[i] * share_i`; new share `j` is the sum of the contributor
polynomials at `j`.  The Rust function interleaves the accumulation over
contributors and new indices; the sum below is the same value.  The aggregated
blinding randoms and the commitments/proofs only populate fields that are not
modelled.  Error messages abbreviate the Rust `format!` strings, and the three
validation checks are sequenced (Rust detects the first offending share in
one loop); the inputs on which an error is returned are identical. -/
def adjust_threshold (existing : List (ShareData F)) (original_threshold new_threshold n : ℕ)
    (A : ℕ → List F) : Except String (List (ShareData F)) :=
  if existing.length < original_threshold then .error "insufficient shares"
  else if ∃ s ∈ existing, s.index = 0 then .error "zero share index"
  else if ¬ (existing.map (fun s => s.index)).Nodup then .error "duplicate share index"
  else
    match compute_lagrange_coefficients (existing.map (fun s => ((s.index : ℕ) : F))) with
    | .error _ => .error "lagrange coefficients failed"
    | .ok lambda =>
      .ok ((List.range' 1 n).map (fun j =>
        ⟨j, (existing.enum.map (fun p =>
          eval_powers (lambda.getD p.1 0 * p.2.share :: A p.1) ((j : ℕ) : F))).sum⟩))

/-- Simulated MPC dealing (`mpc_generate_key_shares` in src/mpc.rs).  The
party polynomials (each with `threshold` randomly drawn coefficients in Rust)
enter explicitly; the global secret is the sum of the constant terms
(`poly[0]`, which in Rust panics for an empty polynomial, i.e. threshold 0;
the claims assume threshold at least 1) and share `i` aggregates the party
evaluations at `i`. -/
def mpc_generate_key_shares (party_polynomials : List (List F)) (n : ℕ) :
    F × List (ShareData F) :=
  ((party_polynomials.map (fun poly => poly.getD 0 0)).sum,
   (List.range' 1 n).map (fun i =>
     ⟨i, (party_polynomials.map (fun poly => eval_powers poly ((i : ℕ) : F))).sum⟩))

/-- Deserialisation of a compressed group point
(`SerRistrettoPoint::deserialize` in src/serialization.rs), from the stage
where the hex layer has produced raw bytes.  The dalek primitives
`CompressedRistretto::decompress` and `is_identity` are external-library
functions and enter abstractly. -/
def deserialize_ristretto {Point : Type*} (decompress : List (Fin 256) → Option Point)
    (is_identity : Point → Bool) (bytes : List (Fin 256)) : Except String Point :=
  if bytes.length ≠ 32 then .error "Invalid point length"
  else
    match decompress bytes with
    | some point =>
      if ¬ is_identity point then .ok point
      else .error "Invalid point: identity"
    | none => .error "Invalid compressed point"

/-- Parameter check of `EnterpriseCryptoSystem::create_secret_shares`
(src/main.rs): the call proceeds to `generate_key_shares` exactly when
`threshold > num_shares` and `num_shares > 1000` both fail to trigger. -/
def create_secret_shares_param_check (threshold num_shares : ℕ) : Bool :=
  ¬ decide (threshold > num_shares) && ¬ decide (num_shares > 1000)

/-- The `usize` expression `threshold - 1` sizing the coefficient range in
`generate_key_shares` (src/sharing.rs), with 64-bit wrap-around made
explicit: for `threshold = 0` the subtraction underflows. -/
def coeff_count_usize (threshold : ℕ) : ℕ :=
  (threshold + (2 ^ 64 - 1)) % 2 ^ 64

/-!  Proof-side abstraction: coefficient lists as Mathlib polynomials.  -/

open Polynomial in
/-- The polynomial denoted by a coefficient list (proof-side only). -/
noncomputable def ofList : List F → Polynomial F
  | [] => 0
  | c :: t => Polynomial.C c + Polynomial.X * ofList t

@[simp] theorem ofList_nil : ofList ([] : List F) = 0 := rfl

@[simp] theorem ofList_cons (c : F) (t : List F) :
    ofList (c :: t) = Polynomial.C c + Polynomial.X * ofList t := rfl

@[simp] theorem coeff_ofList (l : List F) (n : ℕ) : (ofList l).coeff n = l.getD n 0 := by
  induction l generalizing n with
  | nil => simp
  | cons c t ih =>
    cases n with
    | zero => simp [Polynomial.mul_coeff_zero]
    | succ n => simp [Polynomial.coeff_X_mul, ih]

theorem ofList_eq_of_getD {a b : List F} (h : ∀ n, a.getD n 0 = b.getD n 0) :
    ofList a = ofList b := by
  ext n
  rw [coeff_ofList, coeff_ofList, h n]

theorem eval_ofList_cons (c : F) (t : List F) (x : F) :
    (ofList (c :: t)).eval x = c + x * (ofList t).eval x := by
  simp

theorem poly_evaluate_eq (p : List F) (x : F) :
    poly_evaluate p x = (ofList p).eval x := by
  have hfold : ∀ q : List F,
      q.reverse.foldl (fun acc c => acc * x + c) 0 = (ofList q).eval x := by
    intro q
    rw [List.foldl_reverse]
    induction q with
    | nil => simp
    | cons c t ih => simp [ih]; ring
  unfold poly_evaluate
  rcases p with _ | ⟨c, t⟩
  · simp
  · simp only [List.isEmpty_cons, Bool.false_eq_true, if_false, hfold]

@[simp] theorem length_poly_add (a b : List F) :
    (poly_add a b).length = max a.length b.length := by
  simp [poly_add]

@[simp] theorem length_poly_sub (a b : List F) :
    (poly_sub a b).length = max a.length b.length := by
  simp [poly_sub]

theorem getD_poly_add (a b : List F) (n : ℕ) :
    (poly_add a b).getD n 0 = a.getD n 0 + b.getD n 0 := by
  unfold poly_add
  by_cases h : n < max a.length b.length
  · rw [List.getD_eq_getElem _ _ (by simpa using h)]
    simp
  · rw [List.getD_eq_default _ _ (by simpa using h)]
    have ha : a.length ≤ n := by omega
    have hb : b.length ≤ n := by omega
    rw [List.getD_eq_default _ _ ha, List.getD_eq_default _ _ hb, add_zero]

theorem getD_poly_sub (a b : List F) (n : ℕ) :
    (poly_sub a b).getD n 0 = a.getD n 0 - b.getD n 0 := by
  unfold poly_sub
  by_cases h : n < max a.length b.length
  · rw [List.getD_eq_getElem _ _ (by simpa using h)]
    simp
  · rw [List.getD_eq_default _ _ (by simpa using h)]
    have ha : a.length ≤ n := by omega
    have hb : b.length ≤ n := by omega
    rw [List.getD_eq_default _ _ ha, List.getD_eq_default _ _ hb, sub_zero]

theorem ofList_poly_add (a b : List F) : ofList (poly_add a b) = ofList a + ofList b := by
  ext n
  rw [coeff_ofList, Polynomial.coeff_add, coeff_ofList, coeff_ofList, getD_poly_add]

theorem ofList_poly_sub (a b : List F) : ofList (poly_sub a b) = ofList a - ofList b := by
  ext n
  rw [coeff_ofList, Polynomial.coeff_sub, coeff_ofList, coeff_ofList, getD_poly_sub]

/-!  Correctness of the multiplication cascade.  -/

theorem getD_take (a : List F) (m k : ℕ) :
    (a.take m).getD k 0 = if k < m then a.getD k 0 else 0 := by
  by_cases hk : k < m
  · rw [if_pos hk]
    by_cases hka : k < a.length
    · rw [List.getD_eq_getElem _ _ (by simp; omega), List.getD_eq_getElem _ _ hka]
      simp
    · rw [List.getD_eq_default _ _ (by simp; omega), List.getD_eq_default _ _ (by omega)]
  · rw [if_neg hk, List.getD_eq_default _ _ (by simp; omega)]

theorem getD_drop (a : List F) (m k : ℕ) :
    (a.drop m).getD k 0 = a.getD (m + k) 0 := by
  by_cases hk : m + k < a.length
  · rw [List.getD_eq_getElem _ _ (by simp; omega), List.getD_eq_getElem _ _ hk]
    simp
  · rw [List.getD_eq_default _ _ (by simp; omega), List.getD_eq_default _ _ (by omega)]

theorem ofList_take_drop (a : List F) (m : ℕ) :
    ofList a = ofList (a.take m) + Polynomial.X ^ m * ofList (a.drop m) := by
  ext k
  rw [Polynomial.coeff_add, coeff_ofList, coeff_ofList, mul_comm,
    Polynomial.coeff_mul_X_pow', getD_take]
  by_cases hk : k < m
  · simp [hk, if_neg (by omega : ¬ m ≤ k)]
  · rw [if_neg hk, if_pos (by omega : m ≤ k), coeff_ofList, getD_drop, zero_add]
    congr 1
    omega

theorem mul_coeff_ofList (a b : List F) (k : ℕ) :
    (ofList a * ofList b).coeff k = ∑ i ∈ Finset.range (k + 1), a.getD i 0 * b.getD (k - i) 0 := by
  rw [Polynomial.coeff_mul, Finset.Nat.sum_antidiagonal_eq_sum_range_succ_mk]
  exact Finset.sum_congr rfl (fun i _ => by rw [coeff_ofList, coeff_ofList])

theorem mul_coeff_vanish (a b : List F) (k : ℕ) (hk : a.length + b.length - 1 ≤ k) :
    (ofList a * ofList b).coeff k = 0 := by
  rw [mul_coeff_ofList]
  refine Finset.sum_eq_zero (fun i hi => ?_)
  rw [Finset.mem_range] at hi
  by_cases ha : i < a.length
  · rw [List.getD_eq_default _ _ (show b.length ≤ k - i by omega), mul_zero]
  · rw [List.getD_eq_default _ _ (by omega), zero_mul]

@[simp] theorem naive_mul_length (a b : List F) :
    (naive_mul a b).length = a.length + b.length - 1 := by
  simp [naive_mul]

theorem getD_naive_mul (a b : List F) (k : ℕ) (hk : k < a.length + b.length - 1) :
    (naive_mul a b).getD k 0 =
      ∑ i ∈ Finset.range a.length, if i ≤ k then a.getD i 0 * b.getD (k - i) 0 else 0 := by
  unfold naive_mul
  rw [List.getD_eq_getElem _ _ (by simpa using hk)]
  simp

theorem ofList_naive_mul (a b : List F) : ofList (naive_mul a b) = ofList a * ofList b := by
  ext k
  rw [coeff_ofList, mul_coeff_ofList]
  by_cases hk : k < a.length + b.length - 1
  · rw [getD_naive_mul a b k hk, ← Finset.sum_filter]
    have hset : (Finset.range a.length).filter (fun i => i ≤ k) =
        (Finset.range (k + 1)).filter (fun i => i < a.length) := by
      ext i
      simp only [Finset.mem_filter, Finset.mem_range]
      omega
    rw [hset, Finset.sum_filter]
    refine Finset.sum_congr rfl (fun i hi => ?_)
    by_cases ha : i < a.length
    · rw [if_pos ha]
    · rw [if_neg ha, List.getD_eq_default _ _ (by omega), zero_mul]
  · rw [List.getD_eq_default _ _ (by simp; omega)]
    have := mul_coeff_vanish a b k (by omega)
    rw [mul_coeff_ofList] at this
    exact this.symm

@[simp] theorem combine_length (len m : ℕ) (z0 z1 z2 : List F) :
    (combine len m z0 z1 z2).length = len := by
  simp [combine]

theorem ofList_combine (a b : List F) (m : ℕ) (z0 z1 z2 : List F)
    (H : ofList z0 + Polynomial.X ^ m * ofList z1 + Polynomial.X ^ (2 * m) * ofList z2 =
      ofList a * ofList b) :
    ofList (combine (a.length + b.length - 1) m z0 z1 z2) = ofList a * ofList b := by
  ext k
  rw [coeff_ofList]
  by_cases hk : k < a.length + b.length - 1
  · rw [show (combine (a.length + b.length - 1) m z0 z1 z2).getD k 0 =
        z0.getD k 0 + (if m ≤ k then z1.getD (k - m) 0 else 0)
          + (if 2 * m ≤ k then z2.getD (k - 2 * m) 0 else 0) by
      unfold combine
      rw [List.getD_eq_getElem _ _ (by simpa using hk)]
      simp]
    rw [← H, Polynomial.coeff_add, Polynomial.coeff_add, coeff_ofList,
      mul_comm (Polynomial.X ^ m), mul_comm (Polynomial.X ^ (2 * m)),
      Polynomial.coeff_mul_X_pow', Polynomial.coeff_mul_X_pow']
    by_cases h1 : m ≤ k <;> by_cases h2 : 2 * m ≤ k <;>
      simp [h1, h2]
  · rw [List.getD_eq_default _ _ (by simp; omega), mul_coeff_vanish a b k (by omega)]

theorem karatsuba_mul_spec (a b : List F) :
    ofList (karatsuba_mul a b) = ofList a * ofList b ∧
      (karatsuba_mul a b).length = a.length + b.length - 1 := by
  by_cases h : max a.length b.length ≤ 32
  · rw [karatsuba_mul, if_pos h]
    exact ⟨ofList_naive_mul a b, naive_mul_length a b⟩
  · have h0 := karatsuba_mul_spec (a.take (max a.length b.length / 2))
      (b.take (max a.length b.length / 2))
    have h2 := karatsuba_mul_spec (a.drop (max a.length b.length / 2))
      (b.drop (max a.length b.length / 2))
    have h1 := karatsuba_mul_spec
      (poly_add (a.take (max a.length b.length / 2)) (a.drop (max a.length b.length / 2)))
      (poly_add (b.take (max a.length b.length / 2)) (b.drop (max a.length b.length / 2)))
    rw [karatsuba_mul, if_neg h]
    refine ⟨ofList_combine a b _ _ _ _ ?_, combine_length _ _ _ _ _⟩
    rw [ofList_poly_sub, ofList_poly_sub, h0.1, h1.1, h2.1,
      ofList_poly_add, ofList_poly_add,
      ofList_take_drop a (max a.length b.length / 2),
      ofList_take_drop b (max a.length b.length / 2)]
    ring
termination_by a.length + b.length
decreasing_by
  all_goals simp only [List.length_take, List.length_drop, poly_add, List.length_map,
    List.length_range]
  all_goals omega

theorem parallel_karatsuba_mul_spec (a b : List F) :
    ofList (parallel_karatsuba_mul a b) = ofList a * ofList b ∧
      (parallel_karatsuba_mul a b).length = a.length + b.length - 1 := by
  by_cases h : max a.length b.length ≤ 1024
  · rw [parallel_karatsuba_mul, if_pos h]
    exact karatsuba_mul_spec a b
  · have h0 := parallel_karatsuba_mul_spec (a.take (max a.length b.length / 2))
      (b.take (max a.length b.length / 2))
    have h2 := parallel_karatsuba_mul_spec (a.drop (max a.length b.length / 2))
      (b.drop (max a.length b.length / 2))
    have h1 := parallel_karatsuba_mul_spec
      (poly_add (a.take (max a.length b.length / 2)) (a.drop (max a.length b.length / 2)))
      (poly_add (b.take (max a.length b.length / 2)) (b.drop (max a.length b.length / 2)))
    rw [parallel_karatsuba_mul, if_neg h]
    refine ⟨ofList_combine a b _ _ _ _ ?_, combine_length _ _ _ _ _⟩
    rw [ofList_poly_sub, ofList_poly_sub, h0.1, h1.1, h2.1,
      ofList_poly_add, ofList_poly_add,
      ofList_take_drop a (max a.length b.length / 2),
      ofList_take_drop b (max a.length b.length / 2)]
    ring
termination_by a.length + b.length
decreasing_by
  all_goals simp only [List.length_take, List.length_drop, poly_add, List.length_map,
    List.length_range]
  all_goals omega

theorem poly_mul_spec (a b : List F) (h : ¬ (a = [] ∧ b = [])) :
    ∃ r, poly_mul a b = some r ∧ ofList r = ofList a * ofList b ∧
      r.length = a.length + b.length - 1 := by
  have hlen : a.length + b.length ≠ 0 := by
    rcases Nat.eq_zero_or_pos (a.length + b.length) with h0 | h0
    · exact absurd ⟨List.eq_nil_of_length_eq_zero (by omega),
        List.eq_nil_of_length_eq_zero (by omega)⟩ h
    · omega
  unfold poly_mul
  rw [if_neg hlen]
  by_cases h64 : a.length + b.length - 1 ≤ 64
  · exact ⟨_, rfl, by rw [if_pos h64]; exact ⟨ofList_naive_mul a b, naive_mul_length a b⟩⟩
  · by_cases h1024 : a.length + b.length - 1 ≤ 1024
    · exact ⟨_, rfl, by rw [if_neg h64, if_pos h1024]; exact karatsuba_mul_spec a b⟩
    · exact ⟨_, rfl, by rw [if_neg h64, if_neg h1024]; exact parallel_karatsuba_mul_spec a b⟩

theorem length_sum_lower (l : List (List F)) (h : ∀ p ∈ l, p ≠ []) :
    l.length ≤ (l.map List.length).sum := by
  induction l with
  | nil => simp
  | cons p t ih =>
    have hp : 1 ≤ p.length := List.length_pos.mpr (h p (by simp))
    have ht := ih (fun q hq => h q (by simp [hq]))
    simp only [List.map_cons, List.sum_cons, List.length_cons]
    omega

theorem poly_product_spec (ps : List (List F)) (h : ∀ p ∈ ps, p ≠ []) :
    ∃ r, poly_product ps = some r ∧ ofList r = (ps.map ofList).prod ∧
      r.length + ps.length = (ps.map List.length).sum + 1 := by
  match ps with
  | [] =>
    refine ⟨[1], by simp only [poly_product], ?_, by simp⟩
    simp
  | [p] =>
    refine ⟨p, by simp only [poly_product], by simp, by simp⟩
  | [p, q] =>
    obtain ⟨r, hr, hof, hlen⟩ := poly_mul_spec p q
      (by rintro ⟨hp, hq⟩; exact h p (by simp) hp)
    have hp : 1 ≤ p.length := List.length_pos.mpr (h p (by simp))
    have hq : 1 ≤ q.length := List.length_pos.mpr (h q (by simp))
    refine ⟨r, by simp only [poly_product]; exact hr, by simpa using hof, by simp; omega⟩
  | p :: q :: r :: rest =>
    have htake := poly_product_spec ((p :: q :: r :: rest).take ((p :: q :: r :: rest).length / 2))
      (fun x hx => h x (List.take_subset _ _ hx))
    have hdrop := poly_product_spec ((p :: q :: r :: rest).drop ((p :: q :: r :: rest).length / 2))
      (fun x hx => h x (List.drop_subset _ _ hx))
    obtain ⟨left, hl, hlof, hllen⟩ := htake
    obtain ⟨right, hr, hrof, hrlen⟩ := hdrop
    have hlsum := length_sum_lower ((p :: q :: r :: rest).take ((p :: q :: r :: rest).length / 2))
      (fun x hx => h x (List.take_subset _ _ hx))
    have hrsum := length_sum_lower ((p :: q :: r :: rest).drop ((p :: q :: r :: rest).length / 2))
      (fun x hx => h x (List.drop_subset _ _ hx))
    have hlpos : 1 ≤ left.length := by
      rcases Nat.eq_zero_or_pos left.length with h0 | h0
      · rw [h0] at hllen
        omega
      · exact h0
    have hrpos : 1 ≤ right.length := by
      rcases Nat.eq_zero_or_pos right.length with h0 | h0
      · rw [h0] at hrlen
        omega
      · exact h0
    obtain ⟨res, hres, hresof, hreslen⟩ := poly_mul_spec left right (by
      rintro ⟨hleft, _⟩
      rw [hleft] at hlpos
      simp at hlpos)
    refine ⟨res, ?_, ?_, ?_⟩
    · simp only [poly_product]
      rw [hl, hr, Option.some_bind, Option.some_bind]
      exact hres
    · rw [hresof, hlof, hrof]
      rw [← List.prod_append, ← List.map_append, List.take_append_drop]
    · have happ : ((p :: q :: r :: rest).take ((p :: q :: r :: rest).length / 2)).length
          + ((p :: q :: r :: rest).drop ((p :: q :: r :: rest).length / 2)).length
          = (p :: q :: r :: rest).length := by
        simp only [List.length_take, List.length_drop, List.length_cons]
        omega
      have hsum : (((p :: q :: r :: rest).take
            ((p :: q :: r :: rest).length / 2)).map List.length).sum
          + (((p :: q :: r :: rest).drop
            ((p :: q :: r :: rest).length / 2)).map List.length).sum
          = ((p :: q :: r :: rest).map List.length).sum := by
        rw [← List.sum_append, ← List.map_append, List.take_append_drop]
      omega
termination_by ps.length
decreasing_by
  all_goals simp only [List.length_take, List.length_drop, List.length_cons]
  all_goals omega

theorem ofList_poly_derivative (p : List F) :
    ofList (poly_derivative p) = Polynomial.derivative (ofList p) := by
  unfold poly_derivative
  by_cases h : p.length ≤ 1
  · rw [if_pos h]
    rcases p with _ | ⟨c, t⟩
    · simp
    · have ht : t = [] := by
        simp only [List.length_cons] at h
        exact List.eq_nil_of_length_eq_zero (by omega)
      subst ht
      simp
  · rw [if_neg h]
    ext k
    rw [coeff_ofList, Polynomial.coeff_derivative, coeff_ofList]
    by_cases hk : k < p.length - 1
    · rw [List.getD_eq_getElem _ _ (by simpa using hk)]
      simp only [List.getElem_map, List.getElem_range]
      push_cast
      ring
    · rw [List.getD_eq_default _ _ (by simp; omega),
        List.getD_eq_default _ _ (by omega), zero_mul]

/-!  Evaluation loops and the interpolation identity at zero.  -/

theorem eval_powers_aux (l : List F) (x v pw : F) :
    (l.foldl (fun p c => (p.1 + c * p.2, p.2 * x)) (v, pw)).1
      = v + pw * (ofList l).eval x := by
  induction l generalizing v pw with
  | nil => simp
  | cons c t ih =>
    rw [List.foldl_cons, ih]
    simp only [eval_ofList_cons]
    ring

theorem eval_powers_eq (l : List F) (x : F) : eval_powers l x = (ofList l).eval x := by
  unfold eval_powers
  rw [eval_powers_aux]
  ring

theorem share_fold_aux (l : List F) (x acc : F) (k : ℕ) :
    (List.enumFrom k l).foldl (fun acc jc => acc + jc.2 * pow_scalar x (jc.1 + 1)) acc
      = acc + x ^ (k + 1) * (ofList l).eval x := by
  induction l generalizing k acc with
  | nil => simp
  | cons c t ih =>
    rw [List.enumFrom_cons, List.foldl_cons, ih]
    simp only [eval_ofList_cons, pow_scalar]
    ring

theorem share_fold_eq (secret x : F) (coeffs : List F) :
    coeffs.enum.foldl (fun acc jc => acc + jc.2 * pow_scalar x (jc.1 + 1)) secret
      = (ofList (secret :: coeffs)).eval x := by
  rw [show coeffs.enum = List.enumFrom 0 coeffs from rfl, share_fold_aux]
  simp only [eval_ofList_cons]
  ring

theorem degree_ofList_lt (l : List F) : (ofList l).degree < ((l.length : ℕ) : WithBot ℕ) := by
  by_cases h : l = []
  · subst h
    simp [Nat.cast_withBot]
  · rw [Polynomial.degree_lt_iff_coeff_zero]
    intro m hm
    rw [coeff_ofList]
    exact List.getD_eq_default _ _ (by exact_mod_cast hm)

theorem interp_at_zero (S : Finset F) (p : Polynomial F) (hdeg : p.degree < S.card) :
    p.eval 0 = ∑ x ∈ S, p.eval x * ∏ y ∈ S.erase x, ((x - y)⁻¹ * (0 - y)) := by
  have hinj : Set.InjOn id (S : Set F) := Function.injective_id.injOn
  have hrep := Lagrange.eq_interpolate (v := id) (f := p) hinj (by simpa using hdeg)
  conv_lhs => rw [hrep]
  rw [Lagrange.interpolate_apply, Polynomial.eval_finset_sum]
  refine Finset.sum_congr rfl (fun x hx => ?_)
  rw [Polynomial.eval_mul, Polynomial.eval_C]
  congr 1
  rw [show Lagrange.basis S id x = ∏ y ∈ S.erase x, Lagrange.basisDivisor (id x) (id y) from rfl,
    Polynomial.eval_prod]
  refine Finset.prod_congr rfl (fun y hy => ?_)
  simp [Lagrange.basisDivisor]

theorem deriv_prod_eval (S : Finset F) (x : F) (hx : x ∈ S) :
    (Polynomial.derivative (∏ y ∈ S, (Polynomial.X - Polynomial.C y))).eval x
      = ∏ y ∈ S.erase x, (x - y) := by
  rw [← Finset.mul_prod_erase S _ hx, Polynomial.derivative_mul]
  simp [Polynomial.eval_prod]

theorem recover_lam_eq (S : Finset F) (x : F) (hx : x ∈ S) (h0 : ∀ y ∈ S, y ≠ 0) :
    -(∏ y ∈ S, (0 - y)) * (x * ∏ y ∈ S.erase x, (x - y))⁻¹
      = ∏ y ∈ S.erase x, ((x - y)⁻¹ * (0 - y)) := by
  have hxne : x ≠ 0 := h0 x hx
  rw [← Finset.mul_prod_erase S _ hx, mul_inv, Finset.prod_mul_distrib, ← Finset.prod_inv_distrib]
  field_simp
  exact mul_div_mul_left _ _ hxne

/-!  The reconstruction master lemma.  -/

theorem ofList_linear (x : F) :
    ofList [-x, (1 : F)] = Polynomial.X - Polynomial.C x := by
  simp only [ofList_cons, ofList_nil, mul_zero, add_zero, map_one, mul_one, map_neg]
  ring

theorem recover_loop_ok (q0 : F) (qder : List F) (shares : List (ShareData F)) (acc : F)
    (h : ∀ s ∈ shares, poly_evaluate qder ((s.index : ℕ) : F) ≠ 0) :
    recover_loop q0 qder shares acc = .ok (acc +
      (shares.map (fun s => s.share * (-q0 *
        ((((s.index : ℕ) : F)) * poly_evaluate qder (((s.index : ℕ) : F)))⁻¹))).sum) := by
  induction shares generalizing acc with
  | nil => simp [recover_loop]
  | cons s rest ih =>
    rw [recover_loop.eq_2, if_neg (h s (by simp)), ih _ (fun t ht => h t (by simp [ht]))]
    congr 1
    simp only [List.map_cons, List.sum_cons]
    ring

theorem recover_loop_err (q0 : F) (qder : List F) (shares : List (ShareData F)) (acc : F)
    (h : ∃ s ∈ shares, poly_evaluate qder ((s.index : ℕ) : F) = 0) :
    ∃ k, recover_loop q0 qder shares acc = .error (.ZeroDerivative k) := by
  induction shares generalizing acc with
  | nil => simp at h
  | cons s rest ih =>
    by_cases hs : poly_evaluate qder ((s.index : ℕ) : F) = 0
    · exact ⟨s.index, by rw [recover_loop.eq_2, if_pos hs]⟩
    · obtain ⟨t, ht, h0⟩ := h
      rcases List.mem_cons.mp ht with rfl | ht
      · exact absurd h0 hs
      · rw [recover_loop.eq_2, if_neg hs]
        exact ih _ ⟨t, ht, h0⟩

theorem recover_secret_fft_eval (shares : List (ShareData F)) (p : Polynomial F)
    (hne : shares ≠ [])
    (hz : ∀ s ∈ shares, s.index ≠ 0)
    (hnd : (shares.map (fun s => ((s.index : ℕ) : F))).Nodup)
    (hxnz : ∀ s ∈ shares, (((s.index : ℕ) : F)) ≠ 0)
    (hdeg : p.degree < ((shares.length : ℕ) : WithBot ℕ))
    (hval : ∀ s ∈ shares, s.share = p.eval (((s.index : ℕ) : F))) :
    recover_secret_fft shares = some (.ok (p.eval 0)) := by
  classical
  obtain ⟨q, hq, hqof, hqlen⟩ :=
    poly_product_spec ((shares.map (fun s => ((s.index : ℕ) : F))).map (fun x => [-x, (1 : F)]))
      (by
        intro pp hpp
        rw [List.mem_map] at hpp
        obtain ⟨x, hx, rfl⟩ := hpp
        simp)
  have hSsub : ∀ y ∈ (shares.map (fun s => ((s.index : ℕ) : F))).toFinset, y ≠ 0 := by
    intro y hy
    rw [List.mem_toFinset, List.mem_map] at hy
    obtain ⟨s, hs, rfl⟩ := hy
    exact hxnz s hs
  have hofq : ofList q =
      ∏ x ∈ (shares.map (fun s => ((s.index : ℕ) : F))).toFinset,
        (Polynomial.X - Polynomial.C x) := by
    rw [hqof, List.map_map, List.prod_toFinset _ hnd]
    refine congrArg List.prod ?_
    refine List.map_congr_left (fun x hx => ?_)
    exact ofList_linear x
  have hcard : (shares.map (fun s => ((s.index : ℕ) : F))).toFinset.card = shares.length := by
    rw [List.toFinset_card_of_nodup hnd, List.length_map]
  have hqpos : 1 ≤ q.length := by
    rcases Nat.eq_zero_or_pos q.length with h0 | h0
    · rw [h0] at hqlen
      have := length_sum_lower ((shares.map (fun s => ((s.index : ℕ) : F))).map
        (fun x => [-x, (1 : F)])) (by
          intro pp hpp
          rw [List.mem_map] at hpp
          obtain ⟨x, hx, rfl⟩ := hpp
          simp)
      omega
    · exact h0
  have hqne : ¬ q.isEmpty = true := by
    rcases q with _ | ⟨c, t⟩
    · simp at hqpos
    · simp
  have hq0 : (if ¬ q.isEmpty then q.getD 0 0 else 1) =
      ∏ y ∈ (shares.map (fun s => ((s.index : ℕ) : F))).toFinset, (0 - y) := by
    rw [if_pos hqne, show q.getD 0 0 = (ofList q).coeff 0 from (coeff_ofList q 0).symm, hofq,
      Polynomial.coeff_zero_eq_eval_zero, Polynomial.eval_prod]
    refine Finset.prod_congr rfl (fun y hy => ?_)
    simp
  have hqd : ∀ s ∈ shares, poly_evaluate (poly_derivative q) (((s.index : ℕ) : F))
      = ∏ y ∈ ((shares.map (fun s => ((s.index : ℕ) : F))).toFinset).erase
          (((s.index : ℕ) : F)), ((((s.index : ℕ) : F)) - y) := by
    intro s hs
    rw [poly_evaluate_eq, ofList_poly_derivative, hofq]
    exact deriv_prod_eval _ _ (by
      rw [List.mem_toFinset, List.mem_map]
      exact ⟨s, hs, rfl⟩)
  have hqdne : ∀ s ∈ shares, poly_evaluate (poly_derivative q) (((s.index : ℕ) : F)) ≠ 0 := by
    intro s hs
    rw [hqd s hs, Finset.prod_ne_zero_iff]
    intro y hy
    rw [Finset.mem_erase] at hy
    exact sub_ne_zero.mpr (Ne.symm hy.1)
  have hE : ¬ shares.isEmpty = true := by
    rcases shares with _ | ⟨s, t⟩
    · exact absurd rfl hne
    · simp
  have hZ : ¬ ∃ s ∈ shares, s.index = 0 := by
    rintro ⟨s, hs, h0⟩
    exact hz s hs h0
  have hfilter : shares.filter (fun (s : ShareData F) => s.index == 0) = [] := by
    rw [List.filter_eq_nil_iff]
    intro s hs
    simpa using hz s hs
  have hF : ¬ ¬ (shares.filter (fun (s : ShareData F) => s.index == 0)).isEmpty = true := by
    rw [hfilter]
    simp
  unfold recover_secret_fft
  rw [if_neg hE, if_neg hZ, if_neg hF, hq, Option.map_some']
  congr 1
  rw [recover_loop_ok _ _ _ _ hqdne, zero_add]
  congr 1
  have hstep : shares.map (fun s => s.share *
      (-(if ¬ q.isEmpty then q.getD 0 0 else 1) *
        ((((s.index : ℕ) : F)) * poly_evaluate (poly_derivative q) (((s.index : ℕ) : F)))⁻¹)) =
      shares.map ((fun x => p.eval x *
        ∏ y ∈ ((shares.map (fun s => ((s.index : ℕ) : F))).toFinset).erase x,
          ((x - y)⁻¹ * (0 - y))) ∘ (fun s => ((s.index : ℕ) : F))) := by
    refine List.map_congr_left (fun s hs => ?_)
    rw [Function.comp_apply, hval s hs, hq0, hqd s hs]
    congr 1
    exact recover_lam_eq _ _ (by
      rw [List.mem_toFinset, List.mem_map]
      exact ⟨s, hs, rfl⟩) hSsub
  rw [hstep, ← List.map_map, ← List.sum_toFinset _ hnd,
    ← interp_at_zero _ p (by rw [hcard]; exact hdeg)]

/-!  Specification of compute_lagrange_coefficients.  -/

theorem dup_scan_none (l : List (F × ℕ)) (seen : List (F × ℕ))
    (hnd : (l.map Prod.fst).Nodup)
    (hseen : ∀ p ∈ l, seen.lookup p.1 = none) :
    dup_scan seen l = none := by
  induction l generalizing seen with
  | nil => rfl
  | cons q rest ih =>
    obtain ⟨x, i⟩ := q
    rw [dup_scan, hseen (x, i) (by simp)]
    refine ih _ (by simpa using hnd.of_cons) (fun p hp => ?_)
    have hx : p.1 ≠ x := by
      intro hcontra
      have hmem : x ∈ rest.map Prod.fst := by
        rw [← hcontra]
        exact List.mem_map_of_mem _ hp
      simp only [List.map_cons, List.nodup_cons] at hnd
      exact hnd.1 hmem
    have hbx : (p.1 == x) = false := by simpa using hx
    rw [List.lookup, hbx]
    exact hseen p (by simp [hp])

theorem lagrange_inner_ok (xi : F) (i : ℕ) (l : List (ℕ × F)) (num den : F)
    (h : ∀ p ∈ l, p.1 ≠ i → xi - p.2 ≠ 0) :
    lagrange_inner xi i l num den = .ok
      (num * ((l.filter (fun p => p.1 != i)).map Prod.snd).prod,
       den * ((l.filter (fun p => p.1 != i)).map (fun p => xi - p.2)).prod) := by
  induction l generalizing num den with
  | nil => simp [lagrange_inner]
  | cons q rest ih =>
    obtain ⟨j, xj⟩ := q
    by_cases hij : i = j
    · subst hij
      rw [lagrange_inner.eq_2, if_pos rfl, ih _ _ (fun p hp => h p (by simp [hp]))]
      simp [List.filter_cons]
    · have hd : xi - xj ≠ 0 := h (j, xj) (by simp) (Ne.symm hij)
      have hb : (((j, xj) : ℕ × F).1 != i) = true := by
        simpa [bne_iff_ne] using Ne.symm hij
      rw [lagrange_inner.eq_2, if_neg hij, if_neg hd,
        ih _ _ (fun p hp => h p (by simp [hp]))]
      simp only [List.filter_cons, hb, if_true, List.map_cons, List.prod_cons]
      rw [Except.ok.injEq, Prod.mk.injEq]
      constructor <;> ring

theorem enumFrom_filter_ne_map_snd (l : List F) (i k : ℕ) :
    ((List.enumFrom k l).filter (fun p => p.1 != i)).map Prod.snd
      = if i < k then l else l.take (i - k) ++ l.drop (i - k + 1) := by
  induction l generalizing k with
  | nil => simp
  | cons c t ih =>
    rw [List.enumFrom_cons, List.filter_cons]
    by_cases hik : k = i
    · subst hik
      simp only [bne_self_eq_false, Bool.false_eq_true, if_false]
      rw [ih (k + 1), if_pos (by omega), if_neg (by omega : ¬ k < k)]
      simp
    · have hb : (((k, c) : ℕ × F).1 != i) = true := by
        simpa [bne_iff_ne] using hik
      rw [if_pos hb, List.map_cons, ih (k + 1)]
      by_cases hlt : i < k
      · rw [if_pos (by omega), if_pos hlt]
      · rw [if_neg (by omega), if_neg hlt]
        rw [show i - k = (i - k - 1) + 1 by omega]
        simp only [List.take_succ_cons, List.drop_succ_cons, List.cons_append]
        congr 2

theorem enum_filter_ne_map_snd (l : List F) (i : ℕ) :
    ((l.enum.filter (fun p => p.1 != i)).map Prod.snd) = l.take i ++ l.drop (i + 1) := by
  rw [show l.enum = List.enumFrom 0 l from rfl, enumFrom_filter_ne_map_snd,
    if_neg (by omega)]
  simp

theorem enumFrom_mem_spec {α : Type*} (d : α) (l : List α) (k : ℕ) (p : ℕ × α)
    (hp : p ∈ List.enumFrom k l) :
    k ≤ p.1 ∧ p.1 - k < l.length ∧ l.getD (p.1 - k) d = p.2 := by
  induction l generalizing k with
  | nil => simp at hp
  | cons c t ih =>
    rw [List.enumFrom_cons] at hp
    rcases List.mem_cons.mp hp with rfl | hp
    · simp
    · obtain ⟨h1, h2, h3⟩ := ih (k + 1) hp
      refine ⟨by omega, by simp; omega, ?_⟩
      rw [show p.1 - k = (p.1 - (k + 1)) + 1 by omega]
      simpa using h3

theorem split_at_getD (l : List F) (i : ℕ) (hi : i < l.length) :
    l = l.take i ++ l.getD i 0 :: l.drop (i + 1) := by
  conv_lhs => rw [← List.take_append_drop i l]
  congr 1
  rw [List.getD_eq_getElem _ _ hi]
  exact (List.drop_eq_getElem_cons hi)

theorem rest_facts (l : List F) (i : ℕ) (hi : i < l.length) (hnd : l.Nodup) :
    (l.take i ++ l.drop (i + 1)).Nodup ∧ l.getD i 0 ∉ (l.take i ++ l.drop (i + 1)) := by
  have hsplit := split_at_getD l i hi
  rw [hsplit] at hnd
  rw [List.nodup_append] at hnd
  obtain ⟨ht, hxd, hdisj⟩ := hnd
  rw [List.nodup_cons] at hxd
  constructor
  · exact ht.append hxd.2 (fun a ha had => hdisj ha (by simp [had]))
  · intro hmem
    rcases List.mem_append.mp hmem with hmem | hmem
    · exact hdisj hmem (by simp)
    · exact hxd.1 hmem

theorem rest_toFinset (l : List F) (i : ℕ) (hi : i < l.length) (hnd : l.Nodup) :
    (l.take i ++ l.drop (i + 1)).toFinset = l.toFinset.erase (l.getD i 0) := by
  obtain ⟨hrest, hnotmem⟩ := rest_facts l i hi hnd
  ext y
  rw [List.mem_toFinset, Finset.mem_erase, List.mem_toFinset]
  constructor
  · intro hy
    refine ⟨fun hcontra => hnotmem (hcontra ▸ hy), ?_⟩
    rcases List.mem_append.mp hy with hy | hy
    · exact List.take_subset _ _ hy
    · exact List.drop_subset _ _ hy
  · rintro ⟨hne2, hy⟩
    conv at hy => rw [split_at_getD l i hi]
    rcases List.mem_append.mp hy with hy | hy
    · exact List.mem_append.mpr (Or.inl hy)
    · rcases List.mem_cons.mp hy with rfl | hy
      · exact absurd rfl hne2
      · exact List.mem_append.mpr (Or.inr hy)

theorem lagrange_outer_ok (indices : List F) (sign : F) (pairs : List (ℕ × F))
    (hnd : indices.Nodup)
    (hpair : ∀ p ∈ pairs, p.1 < indices.length ∧ indices.getD p.1 0 = p.2) :
    lagrange_outer indices sign pairs = .ok (pairs.map (fun p =>
      sign * (indices.take p.1 ++ indices.drop (p.1 + 1)).prod *
        (((indices.take p.1 ++ indices.drop (p.1 + 1)).map (fun y => p.2 - y)).prod)⁻¹)) := by
  induction pairs with
  | nil => rfl
  | cons pp rest ih =>
    obtain ⟨i, xi⟩ := pp
    obtain ⟨hilt, hieq⟩ := hpair (i, xi) (by simp)
    dsimp only at hilt hieq
    have hinner := lagrange_inner_ok xi i indices.enum 1 1 (by
      intro q hq hqi
      obtain ⟨hq0, hq1, hq2⟩ := enumFrom_mem_spec (0 : F) indices 0 q (by simpa using hq)
      simp only [Nat.sub_zero] at hq1 hq2
      rw [← hieq, ← hq2]
      intro hcontra
      have hEq : indices.getD i 0 = indices.getD q.1 0 := by
        have := sub_eq_zero.mp hcontra
        exact this
      rw [List.getD_eq_getElem _ _ hilt, List.getD_eq_getElem _ _ hq1] at hEq
      exact hqi ((hnd.getElem_inj_iff.mp hEq).symm))
    have hmapsnd := enum_filter_ne_map_snd indices i
    have hmap2 : ((indices.enum.filter (fun p => p.1 != i)).map (fun q => xi - q.2))
        = (indices.take i ++ indices.drop (i + 1)).map (fun y => xi - y) := by
      rw [show (fun (q : ℕ × F) => xi - q.2) = ((fun y => xi - y) ∘ Prod.snd) from rfl,
        ← List.map_map, hmapsnd]
    have hrest := rest_facts indices i hilt hnd
    have hdenne : ((indices.take i ++ indices.drop (i + 1)).map (fun y => xi - y)).prod ≠ 0 := by
      apply List.prod_ne_zero
      intro hzero
      rw [List.mem_map] at hzero
      obtain ⟨y, hy, hy0⟩ := hzero
      have hyx : y = xi := by
        have := sub_eq_zero.mp hy0
        exact this.symm
      rw [hyx, ← hieq] at hy
      exact hrest.2 hy
    simp only [lagrange_outer, hinner, hmapsnd, hmap2, one_mul,
      ih (fun p hp => hpair p (by simp [hp])), if_neg hdenne, List.map_cons]

theorem enum_pairs_spec (l : List F) : ∀ p ∈ l.enum, p.1 < l.length ∧ l.getD p.1 0 = p.2 := by
  intro p hp
  have h := enumFrom_mem_spec (0 : F) l 0 p (by simpa using hp)
  simpa using h

theorem compute_lagrange_spec (indices : List F) (hne : indices ≠ []) (hnd : indices.Nodup) :
    compute_lagrange_coefficients indices = .ok (indices.enum.map (fun p =>
      (if (indices.length - 1) % 2 = 0 then (1 : F) else -1) *
        (indices.take p.1 ++ indices.drop (p.1 + 1)).prod *
        (((indices.take p.1 ++ indices.drop (p.1 + 1)).map (fun y => p.2 - y)).prod)⁻¹)) := by
  have hscan : dup_scan [] (indices.enum.map (fun p => (p.2, p.1))) = none := by
    apply dup_scan_none
    · rw [List.map_map]
      rw [show (Prod.fst ∘ fun p : ℕ × F => (p.2, p.1)) = Prod.snd from rfl,
        List.enum_map_snd]
      exact hnd
    · intro p hp
      rfl
  unfold compute_lagrange_coefficients
  rw [if_neg hne]
  simp only [hscan]
  exact lagrange_outer_ok indices _ indices.enum hnd (enum_pairs_spec indices)

theorem sign_eq_neg_one_pow (n : ℕ) : (if n % 2 = 0 then (1 : F) else -1) = (-1) ^ n := by
  rcases Nat.even_or_odd n with he | ho
  · rw [if_pos (Nat.even_iff.mp he), he.neg_one_pow]
  · rw [if_neg (by rw [Nat.odd_iff.mp ho]; omega), ho.neg_one_pow]

theorem prod_neg_finset (S : Finset F) (f : F → F) :
    ∏ y ∈ S, -f y = (-1) ^ S.card * ∏ y ∈ S, f y := by
  rw [show (fun y => -f y) = (fun y => (-1) * f y) from funext (fun y => (neg_one_mul (f y)).symm),
    Finset.prod_mul_distrib, Finset.prod_const]

theorem lam_pos_eq (indices : List F) (hnd : indices.Nodup) (i : ℕ) (hi : i < indices.length) :
    (if (indices.length - 1) % 2 = 0 then (1 : F) else -1) *
      (indices.take i ++ indices.drop (i + 1)).prod *
      (((indices.take i ++ indices.drop (i + 1)).map
        (fun y => indices.getD i 0 - y)).prod)⁻¹
    = ∏ y ∈ indices.toFinset.erase (indices.getD i 0),
        ((indices.getD i 0 - y)⁻¹ * (0 - y)) := by
  obtain ⟨hrestnd, hnotmem⟩ := rest_facts indices i hi hnd
  have hTF := rest_toFinset indices i hi hnd
  have hxmem : indices.getD i 0 ∈ indices.toFinset := by
    rw [List.mem_toFinset, List.getD_eq_getElem _ _ hi]
    exact List.getElem_mem _
  have hcard : (indices.toFinset.erase (indices.getD i 0)).card = indices.length - 1 := by
    rw [Finset.card_erase_of_mem hxmem, List.toFinset_card_of_nodup hnd]
  have hprod1 : (indices.take i ++ indices.drop (i + 1)).prod
      = ∏ y ∈ indices.toFinset.erase (indices.getD i 0), y := by
    rw [← hTF, List.prod_toFinset _ hrestnd]
    simp
  have hprod2 : ((indices.take i ++ indices.drop (i + 1)).map
      (fun y => indices.getD i 0 - y)).prod
      = ∏ y ∈ indices.toFinset.erase (indices.getD i 0), (indices.getD i 0 - y) := by
    rw [← hTF, List.prod_toFinset _ hrestnd]
  rw [hprod1, hprod2, sign_eq_neg_one_pow, Finset.prod_mul_distrib, ← Finset.prod_inv_distrib]
  rw [show (fun y => (0 : F) - y) = (fun y => -y) from funext (fun y => zero_sub y)]
  rw [prod_neg_finset _ (fun y => y), hcard]
  ring

theorem range_map_getD (l : List F) {β : Type*} (G : F → β) :
    (List.range l.length).map (fun i => G (l.getD i 0)) = l.map G := by
  refine List.ext_getElem (by simp) (fun i h1 h2 => ?_)
  simp only [List.getElem_map, List.getElem_range]
  rw [List.getD_eq_getElem _ _ (by simpa using h2)]

theorem enum_map_eq_range_map {β : Type*} (l : List F) (f : ℕ × F → β) :
    l.enum.map f = (List.range l.length).map (fun i => f (i, l.getD i 0)) := by
  refine List.ext_getElem (by simp) (fun i h1 h2 => ?_)
  simp only [List.getElem_map, List.getElem_range, List.getElem_enum]
  rw [List.getD_eq_getElem _ _ (by simpa using h2)]

theorem compute_lagrange_interp (indices : List F) (hne : indices ≠ []) (hnd : indices.Nodup)
    (lams : List F) (hlam : compute_lagrange_coefficients indices = .ok lams)
    (p : Polynomial F) (hdeg : p.degree < ((indices.length : ℕ) : WithBot ℕ)) :
    p.eval 0 = ((List.range indices.length).map
      (fun i => lams.getD i 0 * p.eval (indices.getD i 0))).sum := by
  rw [compute_lagrange_spec indices hne hnd] at hlam
  have hlams : lams = indices.enum.map (fun pr =>
      (if (indices.length - 1) % 2 = 0 then (1 : F) else -1) *
        (indices.take pr.1 ++ indices.drop (pr.1 + 1)).prod *
        (((indices.take pr.1 ++ indices.drop (pr.1 + 1)).map
          (fun y => pr.2 - y)).prod)⁻¹) := by
    exact (Except.ok.injEq _ _ ▸ hlam.symm :)
  have hgetlam : ∀ i, i < indices.length → lams.getD i 0 =
      ∏ y ∈ indices.toFinset.erase (indices.getD i 0),
        ((indices.getD i 0 - y)⁻¹ * (0 - y)) := by
    intro i hi
    rw [hlams, List.getD_eq_getElem _ _ (by simpa using hi)]
    simp only [List.getElem_map, List.getElem_enum]
    have hlp := lam_pos_eq indices hnd i hi
    rw [List.getD_eq_getElem _ _ hi] at hlp ⊢
    exact hlp
  have hmapc : (List.range indices.length).map
      (fun i => lams.getD i 0 * p.eval (indices.getD i 0))
      = (List.range indices.length).map (fun i =>
        (∏ y ∈ indices.toFinset.erase (indices.getD i 0),
          ((indices.getD i 0 - y)⁻¹ * (0 - y))) * p.eval (indices.getD i 0)) := by
    refine List.map_congr_left (fun i hi => ?_)
    rw [hgetlam i (by simpa using hi)]
  rw [hmapc, range_map_getD indices
    (fun x => (∏ y ∈ indices.toFinset.erase x, ((x - y)⁻¹ * (0 - y))) * p.eval x),
    ← List.sum_toFinset _ hnd]
  rw [interp_at_zero indices.toFinset p (by rw [List.toFinset_card_of_nodup hnd]; exact hdeg)]
  exact Finset.sum_congr rfl (fun x hx => mul_comm _ _)

/-!  Selection plumbing shared by the reconstruction claims.  -/

theorem degree_list_sum_lt (l : List (Polynomial F)) (D : WithBot ℕ) (hD : ⊥ < D)
    (h : ∀ q ∈ l, q.degree < D) : (l.sum).degree < D := by
  induction l with
  | nil => simpa using hD
  | cons q t ih =>
    rw [List.sum_cons]
    exact lt_of_le_of_lt (Polynomial.degree_add_le _ _)
      (max_lt (h q (by simp)) (ih (fun r hr => h r (by simp [hr]))))

theorem subperm_map {α β : Type*} (f : α → β) {l1 l2 : List α}
    (h : List.Subperm l1 l2) : List.Subperm (l1.map f) (l2.map f) := by
  obtain ⟨l, hperm, hsub⟩ := h
  exact ⟨l.map f, hperm.map f, hsub.map f⟩

theorem subperm_nodup {α : Type*} {l1 l2 : List α}
    (h : List.Subperm l1 l2) (h2 : l2.Nodup) : l1.Nodup := by
  obtain ⟨l, hperm, hsub⟩ := h
  exact hperm.nodup_iff.mp (hsub.nodup h2)

theorem recover_sel (t n : ℕ) (shares sel : List (ShareData F)) (P : Polynomial F)
    (hcast : ∀ i j : ℕ, i ≤ n → j ≤ n → (i : F) = (j : F) → i = j)
    (hidx : shares.map (fun s => s.index) = List.range' 1 n)
    (hval : ∀ s ∈ shares, s.share = P.eval ((s.index : ℕ) : F))
    (hsel : List.Subperm sel shares) (hlen : sel.length = t) (ht : 1 ≤ t)
    (hdeg : P.degree < ((t : ℕ) : WithBot ℕ)) :
    recover_secret_fft sel = some (.ok (P.eval 0)) := by
  have hmemshares : ∀ s ∈ shares, 1 ≤ s.index ∧ s.index ≤ n := by
    intro s hs
    have : s.index ∈ shares.map (fun s => s.index) := List.mem_map_of_mem _ hs
    rw [hidx] at this
    have := List.mem_range'_1.mp this
    omega
  have hsub := hsel.subset
  have hmapcast : shares.map (fun s => ((s.index : ℕ) : F))
      = (List.range' 1 n).map (fun i => ((i : ℕ) : F)) := by
    rw [show (fun (s : ShareData F) => ((s.index : ℕ) : F))
        = ((fun i => ((i : ℕ) : F)) ∘ (fun s => s.index)) from rfl, ← List.map_map, hidx]
  have hndshares : (shares.map (fun s => ((s.index : ℕ) : F))).Nodup := by
    rw [hmapcast]
    refine List.Nodup.map_on ?_ (List.nodup_range' _ _)
    intro x hx y hy hxy
    have hxb := List.mem_range'_1.mp hx
    have hyb := List.mem_range'_1.mp hy
    exact hcast x y (by omega) (by omega) hxy
  have hndsel : (sel.map (fun s => ((s.index : ℕ) : F))).Nodup := by
    exact subperm_nodup (subperm_map (fun s => ((s.index : ℕ) : F)) hsel) hndshares
  have hres := recover_secret_fft_eval sel P
    (by
      intro hnil
      rw [hnil] at hlen
      simp at hlen
      omega)
    (fun s hs => by
      have := (hmemshares s (hsub hs)).1
      omega)
    hndsel
    (fun s hs => by
      obtain ⟨h1, h2⟩ := hmemshares s (hsub hs)
      intro hc
      have : s.index = 0 := hcast s.index 0 (by omega) (by omega) (by simpa using hc)
      omega)
    (by rw [hlen]; exact hdeg)
    (fun s hs => hval s (hsub hs))
  exact hres

/-- C1: for every secret, threshold `1 ≤ t ≤ n`, choice of the `t - 1` random
coefficients, and subset of size `t` of the records returned by
`generate_key_shares`, `recover_secret_fft` returns `Ok` of the secret.  The
hypothesis `hcast` records that the natural-number cast into the scalar field
is injective on `0..n`, true in the Ristretto scalar field for any `usize`
inputs. -/
theorem C1_reconstruction_soundness (t n : ℕ) (secret : F) (coeffs : List F)
    (sel : List (ShareData F))
    (hcast : ∀ i j : ℕ, i ≤ n → j ≤ n → (i : F) = (j : F) → i = j)
    (ht : 1 ≤ t) (htn : t ≤ n)
    (hc : coeffs.length = t - 1)
    (hsel : List.Subperm sel (generate_key_shares secret coeffs n))
    (hlen : sel.length = t) :
    recover_secret_fft sel = some (.ok secret) := by
  have hidx : (generate_key_shares secret coeffs n).map (fun s => s.index)
      = List.range' 1 n := by
    unfold generate_key_shares
    rw [List.map_map]
    simp [Function.comp_def]
  have hval : ∀ s ∈ generate_key_shares secret coeffs n,
      s.share = (ofList (secret :: coeffs)).eval ((s.index : ℕ) : F) := by
    intro s hs
    unfold generate_key_shares at hs
    rw [List.mem_map] at hs
    obtain ⟨i, hi, rfl⟩ := hs
    exact share_fold_eq secret _ coeffs
  have hdeg : (ofList (secret :: coeffs)).degree < ((t : ℕ) : WithBot ℕ) := by
    have := degree_ofList_lt (secret :: coeffs)
    rw [List.length_cons, hc] at this
    have harith : coeffs.length + 1 = t := by rw [hc]; omega
    rw [hc] at harith
    exact lt_of_lt_of_le this (by exact_mod_cast (by omega : t - 1 + 1 ≤ t))
  have := recover_sel t n (generate_key_shares secret coeffs n) sel
    (ofList (secret :: coeffs)) hcast hidx hval hsel hlen ht hdeg
  rw [this]
  congr 2
  simp

/-- C1 witness: the (1,1) sharing of the rational 5 reconstructs to 5. -/
theorem C1_witness : (1 : ℕ) ≤ 1 ∧
    recover_secret_fft [(⟨1, (5 : ℚ)⟩ : ShareData ℚ)] = some (.ok 5) :=
  ⟨le_refl 1,
    C1_reconstruction_soundness 1 1 5 [] [⟨1, 5⟩]
      (fun i j _ _ h => Nat.cast_injective h)
      (le_refl 1) (le_refl 1) rfl (List.Subperm.refl _) rfl⟩

/-- C3 counterexample: on two empty coefficient sequences the `usize` length
computation of `poly_mul` underflows, so no product is returned and the
claimed evaluation identity has no witness at `a = b = []`. -/
theorem C3_counterexample : poly_mul ([] : List ℚ) [] = none := rfl

/-- C3 (amended): for every pair of coefficient sequences that are not both
empty and every point, `poly_mul` returns a product whose evaluation is the
product of the evaluations; on two empty sequences the length computation
underflows and no value is returned. -/
theorem C3_poly_mul_eval (a b : List F) (x : F) (h : ¬ (a = [] ∧ b = [])) :
    ∃ r, poly_mul a b = some r ∧
      poly_evaluate r x = poly_evaluate a x * poly_evaluate b x := by
  obtain ⟨r, hr, hof, _⟩ := poly_mul_spec a b h
  refine ⟨r, hr, ?_⟩
  rw [poly_evaluate_eq, poly_evaluate_eq, poly_evaluate_eq, hof, Polynomial.eval_mul]

/-- C3 witness: the identity at a = [1, 2], b = [3], x = 5 over the
rationals. -/
theorem C3_witness : ¬ (([1, 2] : List ℚ) = [] ∧ ([3] : List ℚ) = []) ∧
    ∃ r, poly_mul ([1, 2] : List ℚ) [3] = some r ∧
      poly_evaluate r 5 = poly_evaluate ([1, 2] : List ℚ) 5 * poly_evaluate ([3] : List ℚ) 5 :=
  ⟨by simp, C3_poly_mul_eval [1, 2] [3] 5 (by simp)⟩

/-- C4: on a non-empty list of pairwise-distinct field elements,
`compute_lagrange_coefficients` returns coefficients of the same length such
that every polynomial of smaller degree satisfies
`p(0) = Σ λ_i * p(x_i)`. -/
theorem C4_lagrange_coefficients (indices : List F) (hne : indices ≠ [])
    (hnd : indices.Nodup) :
    ∃ lams, compute_lagrange_coefficients indices = .ok lams ∧
      lams.length = indices.length ∧
      ∀ p : Polynomial F, p.degree < ((indices.length : ℕ) : WithBot ℕ) →
        p.eval 0 = ((List.range indices.length).map
          (fun i => lams.getD i 0 * p.eval (indices.getD i 0))).sum := by
  refine ⟨_, compute_lagrange_spec indices hne hnd, by simp, fun p hdeg => ?_⟩
  exact compute_lagrange_interp indices hne hnd _ (compute_lagrange_spec indices hne hnd) p hdeg

/-- C4 witness: the coefficient list for the single node 2 over the
rationals, applied to the constant polynomial 7. -/
theorem C4_witness : ([(2 : ℚ)] ≠ []) ∧
    ∃ lams, compute_lagrange_coefficients [(2 : ℚ)] = .ok lams ∧
      lams.length = 1 ∧
      ∀ p : Polynomial ℚ, p.degree < ((([(2 : ℚ)].length : ℕ)) : WithBot ℕ) →
        p.eval 0 = ((List.range [(2 : ℚ)].length).map
          (fun i => lams.getD i 0 * p.eval ([(2 : ℚ)].getD i 0))).sum :=
  ⟨by simp, C4_lagrange_coefficients [(2 : ℚ)] (by simp) (by simp)⟩

/-- C2 counterexample: a single share with index 0 and value 5 is rejected
with `InvalidShareIndex` instead of returning `Ok 5` as the claim states. -/
theorem C2_counterexample :
    recover_secret_fft [(⟨0, (5 : ℚ)⟩ : ShareData ℚ)]
      = some (.error (.InvalidShareIndex 0)) ∧
    recover_secret_fft [(⟨0, (5 : ℚ)⟩ : ShareData ℚ)] ≠ some (.ok 5) := by
  refine ⟨rfl, fun h => ?_⟩
  have h2 : (some (.error (.InvalidShareIndex 0)) : Option (Except LagrangeError ℚ))
      = some (.ok 5) := h
  simp at h2

/-- C2 (amended): the direct-secret escape hatch in `recover_secret_fft` is
dead code: the index-validation loop that precedes it rejects every share
with index 0, so any non-empty collection whose shares all have index 0
yields `Err(InvalidShareIndex 0)` regardless of whether the values agree. -/
theorem C2_hatch_unreachable (shares : List (ShareData F)) (hne : shares ≠ [])
    (hz : ∀ s ∈ shares, s.index = 0) :
    recover_secret_fft shares = some (.error (.InvalidShareIndex 0)) := by
  unfold recover_secret_fft
  rcases shares with _ | ⟨s, rest⟩
  · exact absurd rfl hne
  · rw [if_neg (by simp), if_pos ⟨s, by simp, hz s (by simp)⟩]

/-- C2 witness: the amended behaviour at the concrete input of the
counterexample collection extended by a second agreeing share. -/
theorem C2_witness : ([(⟨0, (7 : ℚ)⟩ : ShareData ℚ), ⟨0, 7⟩] ≠ []) ∧
    recover_secret_fft [(⟨0, (7 : ℚ)⟩ : ShareData ℚ), ⟨0, 7⟩]
      = some (.error (.InvalidShareIndex 0)) :=
  ⟨by simp, C2_hatch_unreachable [⟨0, 7⟩, ⟨0, 7⟩] (by simp)
    (by
      intro s hs
      simp only [List.mem_cons, List.mem_singleton, List.not_mem_nil, or_false] at hs
      rcases hs with rfl | rfl <;> rfl)⟩

/-!  Duplicate-index behaviour of recover_secret_fft (claim C5).  -/

theorem recover_reaches_loop (shares : List (ShareData F)) (q : List F)
    (hne : shares ≠ []) (hz : ∀ s ∈ shares, s.index ≠ 0)
    (hq : poly_product ((shares.map (fun s => ((s.index : ℕ) : F))).map
      (fun x => [-x, 1])) = some q) :
    recover_secret_fft shares = some (recover_loop
      (if ¬ q.isEmpty then q.getD 0 0 else 1) (poly_derivative q) shares 0) := by
  have hE : ¬ shares.isEmpty = true := by
    rcases shares with _ | ⟨s, t⟩
    · exact absurd rfl hne
    · simp
  have hZ : ¬ ∃ s ∈ shares, s.index = 0 := by
    rintro ⟨s, hs, h0⟩
    exact hz s hs h0
  have hfilter : shares.filter (fun (s : ShareData F) => s.index == 0) = [] := by
    rw [List.filter_eq_nil_iff]
    intro s hs
    simpa using hz s hs
  have hF : ¬ ¬ (shares.filter (fun (s : ShareData F) => s.index == 0)).isEmpty = true := by
    rw [hfilter]
    simp
  unfold recover_secret_fft
  rw [if_neg hE, if_neg hZ, if_neg hF, hq, Option.map_some']

theorem count_map_ge {α β : Type*} [DecidableEq α] [DecidableEq β]
    (l : List α) (f : α → β) (a : α) : l.count a ≤ (l.map f).count (f a) := by
  induction l with
  | nil => simp
  | cons b t ih =>
    rw [List.map_cons, List.count_cons, List.count_cons]
    by_cases hb : b = a
    · subst hb
      simp only [beq_self_eq_true, if_true]
      omega
    · have hba : (b == a) = false := by simpa using hb
      rw [hba]
      simp only [Bool.false_eq_true, if_false, add_zero]
      split <;> omega

/-- C5 counterexample: a collection holding an index-0 share besides a
duplicated index 1 is rejected with `InvalidShareIndex`, which is neither of
the two error kinds named by the claim. -/
theorem C5_counterexample :
    recover_secret_fft [(⟨0, (0 : ℚ)⟩ : ShareData ℚ), ⟨1, 0⟩, ⟨1, 0⟩]
      = some (.error (.InvalidShareIndex 0)) ∧
    ¬ ∃ k, recover_secret_fft [(⟨0, (0 : ℚ)⟩ : ShareData ℚ), ⟨1, 0⟩, ⟨1, 0⟩]
        = some (.error (.DuplicateShareIndex k)) ∨
      recover_secret_fft [(⟨0, (0 : ℚ)⟩ : ShareData ℚ), ⟨1, 0⟩, ⟨1, 0⟩]
        = some (.error (.ZeroDerivative k)) := by
  refine ⟨rfl, ?_⟩
  rintro ⟨k, h | h⟩ <;>
    · have h2 : (some (.error (.InvalidShareIndex 0)) : Option (Except LagrangeError ℚ)) = _ := h
      simp at h2

/-- C5 (amended): for every collection of shares all of whose indices are
non-zero in which some index occurs twice, `recover_secret_fft` returns the
`ZeroDerivative` error (one of the two kinds named by the claim): the
repeated root of `Q` makes its derivative vanish at that share. -/
theorem C5_duplicate_rejection (shares : List (ShareData F))
    (hz : ∀ s ∈ shares, s.index ≠ 0)
    (hdup : ¬ (shares.map (fun s => s.index)).Nodup) :
    ∃ k, recover_secret_fft shares = some (.error (.ZeroDerivative k)) := by
  classical
  have hne : shares ≠ [] := by
    rintro rfl
    exact hdup (by simp)
  obtain ⟨q, hq, hqof, hqlen⟩ :=
    poly_product_spec ((shares.map (fun s => ((s.index : ℕ) : F))).map (fun x => [-x, (1 : F)]))
      (by
        intro pp hpp
        rw [List.mem_map] at hpp
        obtain ⟨x, hx, rfl⟩ := hpp
        simp)
  rw [recover_reaches_loop shares q hne hz hq]
  obtain ⟨d, hd⟩ := List.exists_duplicate_iff_not_nodup.mpr hdup
  have hcount : 2 ≤ (shares.map (fun s => s.index)).count d :=
    List.duplicate_iff_two_le_count.mp hd
  obtain ⟨s0, hs0, hs0d⟩ := List.mem_map.mp hd.mem
  have hxs : (shares.map (fun s => s.index)).map (fun i => ((i : ℕ) : F))
      = shares.map (fun s => ((s.index : ℕ) : F)) := by
    rw [List.map_map]
    rfl
  have h1 : (shares.map (fun s => s.index)).count d
      ≤ (shares.map (fun s => ((s.index : ℕ) : F))).count ((d : ℕ) : F) := by
    have h := count_map_ge (shares.map (fun s => s.index)) (fun i => ((i : ℕ) : F)) d
    rw [hxs] at h
    exact h
  have h2 : (shares.map (fun s => ((s.index : ℕ) : F))).count ((d : ℕ) : F)
      ≤ ((shares.map (fun s => ((s.index : ℕ) : F))).map
        (fun x => Polynomial.X - Polynomial.C x)).count
          (Polynomial.X - Polynomial.C ((d : ℕ) : F)) :=
    count_map_ge (shares.map (fun s => ((s.index : ℕ) : F)))
      (fun x => Polynomial.X - Polynomial.C x) ((d : ℕ) : F)
  have hcount2 : 2 ≤ ((shares.map (fun s => ((s.index : ℕ) : F))).map
      (fun x => Polynomial.X - Polynomial.C x)).count
        (Polynomial.X - Polynomial.C ((d : ℕ) : F)) := by omega
  have hofq2 : ofList q = ((shares.map (fun s => ((s.index : ℕ) : F))).map
      (fun x => Polynomial.X - Polynomial.C x)).prod := by
    rw [hqof, List.map_map]
    refine congrArg List.prod ?_
    exact List.map_congr_left (fun x hx => ofList_linear x)
  have hsq : (Polynomial.X - Polynomial.C ((d : ℕ) : F)) ^ 2 ∣ ofList q := by
    rw [hofq2]
    have hle : Multiset.replicate 2 (Polynomial.X - Polynomial.C ((d : ℕ) : F))
        ≤ (((shares.map (fun s => ((s.index : ℕ) : F))).map
          (fun x => Polynomial.X - Polynomial.C x) : List (Polynomial F)) :
            Multiset (Polynomial F)) := by
      rw [← Multiset.le_count_iff_replicate_le, Multiset.coe_count]
      exact hcount2
    have hdvd := Multiset.prod_dvd_prod_of_le hle
    rw [Multiset.prod_replicate, Multiset.prod_coe] at hdvd
    exact hdvd
  obtain ⟨T, hT⟩ := hsq
  have hqd0 : poly_evaluate (poly_derivative q) ((d : ℕ) : F) = 0 := by
    rw [poly_evaluate_eq, ofList_poly_derivative, hT]
    simp [Polynomial.derivative_mul, Polynomial.derivative_pow]
  obtain ⟨k, hk⟩ := recover_loop_err (if ¬ q.isEmpty then q.getD 0 0 else 1)
    (poly_derivative q) shares 0 ⟨s0, hs0, by rw [hs0d]; exact hqd0⟩
  exact ⟨k, by rw [hk]⟩

/-- C5 witness: two copies of share 1 (value 4) over the rationals are
rejected with a `ZeroDerivative` error. -/
theorem C5_witness : (∀ s ∈ [(⟨1, (4 : ℚ)⟩ : ShareData ℚ), ⟨1, 4⟩], s.index ≠ 0) ∧
    ∃ k, recover_secret_fft [(⟨1, (4 : ℚ)⟩ : ShareData ℚ), ⟨1, 4⟩]
      = some (.error (.ZeroDerivative k)) :=
  ⟨by decide, C5_duplicate_rejection [⟨1, 4⟩, ⟨1, 4⟩] (by decide) (by decide)⟩

/-- C6: proactive refresh preserves the secret.  For a share set lying on a
polynomial of degree `< t` with non-zero pairwise-distinct (as field
elements) indices, and any choice of the `t - 1` fresh coefficients,
reconstruction from any `t` records of `update_shares` agrees with
reconstruction from any `t` records of the original set. -/
theorem C6_refresh_preserves (t : ℕ) (S : List (ShareData F)) (update_coeffs : List F)
    (p : Polynomial F) (sel1 sel2 : List (ShareData F))
    (hnd : (S.map (fun s => ((s.index : ℕ) : F))).Nodup)
    (hz : ∀ s ∈ S, s.index ≠ 0)
    (hxnz : ∀ s ∈ S, ((s.index : ℕ) : F) ≠ 0)
    (hdeg : p.degree < ((t : ℕ) : WithBot ℕ))
    (hval : ∀ s ∈ S, s.share = p.eval ((s.index : ℕ) : F))
    (hu : update_coeffs.length = t - 1)
    (h1 : List.Subperm sel1 (update_shares S update_coeffs)) (hl1 : sel1.length = t)
    (h2 : List.Subperm sel2 S) (hl2 : sel2.length = t) :
    recover_secret_fft sel1 = recover_secret_fft sel2 := by
  rcases Nat.eq_zero_or_pos t with ht0 | ht
  · rw [List.eq_nil_of_length_eq_zero (by omega : sel1.length = 0),
      List.eq_nil_of_length_eq_zero (by omega : sel2.length = 0)]
  · have hupmem : ∀ s ∈ update_shares S update_coeffs, ∃ s0 ∈ S, s.index = s0.index ∧
        s.share = (p + ofList ((0 : F) :: update_coeffs)).eval ((s.index : ℕ) : F) := by
      intro s hs
      unfold update_shares at hs
      rw [List.mem_map] at hs
      obtain ⟨s0, hs0, rfl⟩ := hs
      refine ⟨s0, hs0, rfl, ?_⟩
      rw [Polynomial.eval_add, ← hval s0 hs0]
      congr 1
      have := share_fold_eq (0 : F) ((s0.index : ℕ) : F) update_coeffs
      rw [← this]
    have hupcast : (update_shares S update_coeffs).map (fun s => ((s.index : ℕ) : F))
        = S.map (fun s => ((s.index : ℕ) : F)) := by
      unfold update_shares
      rw [List.map_map]
      rfl
    have hdeg2 : (p + ofList ((0 : F) :: update_coeffs)).degree < ((t : ℕ) : WithBot ℕ) := by
      refine lt_of_le_of_lt (Polynomial.degree_add_le _ _) (max_lt hdeg ?_)
      have := degree_ofList_lt ((0 : F) :: update_coeffs)
      rw [List.length_cons, hu] at this
      exact lt_of_lt_of_le this (by exact_mod_cast (by omega : t - 1 + 1 ≤ t))
    have hr1 : recover_secret_fft sel1
        = some (.ok ((p + ofList ((0 : F) :: update_coeffs)).eval 0)) := by
      refine recover_secret_fft_eval sel1 _
        (by
          intro hnil
          rw [hnil] at hl1
          simp at hl1
          omega)
        (fun s hs => by
          obtain ⟨s0, hs0, hEqI, _⟩ := hupmem s (h1.subset hs)
          rw [hEqI]
          exact hz s0 hs0)
        (subperm_nodup (subperm_map _ h1) (by rw [hupcast]; exact hnd))
        (fun s hs => by
          obtain ⟨s0, hs0, hEqI, _⟩ := hupmem s (h1.subset hs)
          rw [hEqI]
          exact hxnz s0 hs0)
        (by rw [hl1]; exact hdeg2)
        (fun s hs => (hupmem s (h1.subset hs)).choose_spec.2.2
          )
    have hr2 : recover_secret_fft sel2 = some (.ok (p.eval 0)) := by
      refine recover_secret_fft_eval sel2 p
        (by
          intro hnil
          rw [hnil] at hl2
          simp at hl2
          omega)
        (fun s hs => hz s (h2.subset hs))
        (subperm_nodup (subperm_map _ h2) hnd)
        (fun s hs => hxnz s (h2.subset hs))
        (by rw [hl2]; exact hdeg)
        (fun s hs => hval s (h2.subset hs))
    rw [hr1, hr2]
    have : (ofList ((0 : F) :: update_coeffs)).eval 0 = 0 := by
      rw [eval_ofList_cons]
      ring
    rw [Polynomial.eval_add, this, add_zero]

/-- C6 witness: refreshing the single share (1, 3) of the constant rational
polynomial 3 with no update coefficients and reconstructing from one share on
each side. -/
theorem C6_witness : ([(⟨1, (3 : ℚ)⟩ : ShareData ℚ)].length = 1) ∧
    recover_secret_fft (update_shares [(⟨1, (3 : ℚ)⟩ : ShareData ℚ)] [])
      = recover_secret_fft [(⟨1, (3 : ℚ)⟩ : ShareData ℚ)] :=
  ⟨rfl,
    C6_refresh_preserves 1 [⟨1, 3⟩] [] (Polynomial.C 3)
      (update_shares [⟨1, 3⟩] []) [⟨1, 3⟩]
      (by simp) (by simp) (by simp)
      (by rw [Polynomial.degree_C (by norm_num : (3 : ℚ) ≠ 0)]; norm_num)
      (by intro s hs; simp at hs; subst hs; simp)
      rfl (List.Subperm.refl _) rfl (List.Subperm.refl _) rfl⟩

theorem eval_list_sum (l : List (Polynomial F)) (x : F) :
    (l.sum).eval x = (l.map (Polynomial.eval x)).sum := by
  induction l with
  | nil => simp
  | cons q t ih => simp [ih]

/-- C8: the simulated MPC dealing returns the sum of the party constant terms
as the global secret, shares indexed 1..n whose values aggregate the party
polynomial evaluations, and any `t` of the shares reconstruct the global
secret.  The party polynomials (threshold-many random coefficients each)
enter explicitly. -/
theorem C8_mpc_generation (parties t n : ℕ) (party_polynomials : List (List F))
    (sel : List (ShareData F))
    (hcast : ∀ i j : ℕ, i ≤ n → j ≤ n → (i : F) = (j : F) → i = j)
    (hparties : party_polynomials.length = parties) (hp1 : 1 ≤ parties)
    (hlenp : ∀ q ∈ party_polynomials, q.length = t)
    (ht : 1 ≤ t) (htn : t ≤ n) :
    (mpc_generate_key_shares party_polynomials n).1
      = (party_polynomials.map (fun q => (ofList q).eval 0)).sum ∧
    ((mpc_generate_key_shares party_polynomials n).2).map (fun s => s.index)
      = List.range' 1 n ∧
    (∀ s ∈ (mpc_generate_key_shares party_polynomials n).2,
      s.share = (party_polynomials.map (fun q => (ofList q).eval ((s.index : ℕ) : F))).sum) ∧
    (List.Subperm sel (mpc_generate_key_shares party_polynomials n).2 → sel.length = t →
      recover_secret_fft sel = some (.ok ((mpc_generate_key_shares party_polynomials n).1))) := by
  have hsecret : (mpc_generate_key_shares party_polynomials n).1
      = (party_polynomials.map (fun q => (ofList q).eval 0)).sum := by
    unfold mpc_generate_key_shares
    refine congrArg List.sum (List.map_congr_left (fun q hq => ?_))
    rw [← Polynomial.coeff_zero_eq_eval_zero, coeff_ofList]
  have hidx : ((mpc_generate_key_shares party_polynomials n).2).map (fun s => s.index)
      = List.range' 1 n := by
    unfold mpc_generate_key_shares
    rw [List.map_map]
    simp [Function.comp_def]
  have hshare : ∀ s ∈ (mpc_generate_key_shares party_polynomials n).2,
      s.share = (party_polynomials.map (fun q => (ofList q).eval ((s.index : ℕ) : F))).sum := by
    intro s hs
    unfold mpc_generate_key_shares at hs
    rw [List.mem_map] at hs
    obtain ⟨i, hi, rfl⟩ := hs
    refine congrArg List.sum (List.map_congr_left (fun q hq => ?_))
    exact eval_powers_eq q _
  refine ⟨hsecret, hidx, hshare, fun hsel hlen => ?_⟩
  have hrec := recover_sel t n (mpc_generate_key_shares party_polynomials n).2 sel
    ((party_polynomials.map ofList).sum) hcast hidx
    (fun s hs => by
      rw [hshare s hs, eval_list_sum, List.map_map]
      rfl)
    hsel hlen ht
    (by
      refine degree_list_sum_lt _ _ (by exact_mod_cast WithBot.bot_lt_coe t) ?_
      intro q hq
      rw [List.mem_map] at hq
      obtain ⟨q0, hq0, rfl⟩ := hq
      have := degree_ofList_lt q0
      rw [hlenp q0 hq0] at this
      exact this)
  rw [hrec, hsecret]
  rw [eval_list_sum, List.map_map]
  rfl

/-- C8 witness: one party with constant polynomial 7, one share, threshold
one. -/
theorem C8_witness : (1 : ℕ) ≤ 1 ∧
    recover_secret_fft (mpc_generate_key_shares [[(7 : ℚ)]] 1).2
      = some (.ok ((mpc_generate_key_shares [[(7 : ℚ)]] 1).1)) := by
  refine ⟨le_refl 1, ?_⟩
  have h := C8_mpc_generation 1 1 1 [[(7 : ℚ)]] (mpc_generate_key_shares [[(7 : ℚ)]] 1).2
    (fun i j _ _ h => Nat.cast_injective h) rfl (le_refl 1)
    (by intro q hq; simp at hq; subst hq; rfl) (le_refl 1) (le_refl 1)
  exact h.2.2.2 (List.Subperm.refl _) rfl

theorem eval_ofList_cons_zero (c : F) (l : List F) : (ofList (c :: l)).eval 0 = c := by
  rw [eval_ofList_cons]
  ring

theorem enum_map_sum_eq_range {α β : Type*} (l : List α) (d : α) (f : ℕ × α → β) :
    l.enum.map f = (List.range l.length).map (fun i => f (i, l.getD i d)) := by
  refine List.ext_getElem (by simp) (fun i h1 h2 => ?_)
  simp only [List.getElem_map, List.getElem_range, List.getElem_enum]
  rw [List.getD_eq_getElem _ _ (by simpa using h2)]

theorem recover_sel_mk (t n : ℕ) (G : ℕ → F) (P : Polynomial F) (sel : List (ShareData F))
    (hcast : ∀ i j : ℕ, i ≤ n → j ≤ n → (i : F) = (j : F) → i = j)
    (hG : ∀ j, G j = P.eval ((j : ℕ) : F))
    (hsel : List.Subperm sel ((List.range' 1 n).map (fun j => (⟨j, G j⟩ : ShareData F))))
    (hlen : sel.length = t) (ht : 1 ≤ t)
    (hdeg : P.degree < ((t : ℕ) : WithBot ℕ)) :
    recover_secret_fft sel = some (.ok (P.eval 0)) := by
  refine recover_sel t n ((List.range' 1 n).map (fun j => (⟨j, G j⟩ : ShareData F))) sel P
    hcast ?_ ?_ hsel hlen ht hdeg
  · rw [List.map_map]
    simp [Function.comp_def]
  · intro s hs
    rw [List.mem_map] at hs
    obtain ⟨j, hj, rfl⟩ := hs
    exact hG j

set_option maxHeartbeats 6400000 in
/-- C7 (amended): distributed resharing.  For a non-empty share set with
non-zero, pairwise-distinct (as field elements) indices lying on a polynomial
of degree below the set size with constant term `s0`, and a new threshold of
at least 1: with fewer than `t_old` shares the call errs, and otherwise it
returns `n` records indexed 1..n, any `t_new` of which reconstruct `s0`. -/
theorem C7_adjust_threshold (t_old t_new n : ℕ) (existing : List (ShareData F))
    (A : ℕ → List F) (s0 : F) (p : Polynomial F) (sel : List (ShareData F))
    (hcast : ∀ i j : ℕ, i ≤ n → j ≤ n → (i : F) = (j : F) → i = j)
    (hnd : (existing.map (fun s => ((s.index : ℕ) : F))).Nodup)
    (hz : ∀ s ∈ existing, s.index ≠ 0)
    (hdeg : p.degree < ((existing.length : ℕ) : WithBot ℕ))
    (hp0 : p.eval 0 = s0)
    (hval : ∀ s ∈ existing, s.share = p.eval ((s.index : ℕ) : F))
    (hA : ∀ i, (A i).length = t_new - 1)
    (hne : existing ≠ []) (ht1 : 1 ≤ t_new) :
    (existing.length < t_old → adjust_threshold existing t_old t_new n A
      = .error "insufficient shares") ∧
    (t_old ≤ existing.length → ∃ res, adjust_threshold existing t_old t_new n A = .ok res ∧
      res.map (fun s => s.index) = List.range' 1 n ∧
      (List.Subperm sel res → sel.length = t_new →
        recover_secret_fft sel = some (.ok s0))) := by
  constructor
  · intro hlt
    unfold adjust_threshold
    rw [if_pos hlt]
  · intro hge
    have hnd_idx : (existing.map (fun s => s.index)).Nodup := by
      have h := hnd
      rw [show (fun (s : ShareData F) => ((s.index : ℕ) : F))
          = ((fun i => ((i : ℕ) : F)) ∘ (fun s => s.index)) from rfl, ← List.map_map] at h
      exact h.of_map
    have hneF : existing.map (fun s => ((s.index : ℕ) : F)) ≠ [] := by
      simpa using hne
    obtain ⟨lams, hCL⟩ : ∃ lams, compute_lagrange_coefficients
        (existing.map (fun s => ((s.index : ℕ) : F))) = .ok lams :=
      ⟨_, compute_lagrange_spec _ hneF hnd⟩
    have hres : adjust_threshold existing t_old t_new n A
        = .ok ((List.range' 1 n).map (fun j =>
          ⟨j, (existing.enum.map (fun pr =>
            eval_powers (lams.getD pr.1 0 * pr.2.share :: A pr.1) ((j : ℕ) : F))).sum⟩)) := by
      unfold adjust_threshold
      rw [if_neg (by omega), if_neg (by
          rintro ⟨s, hs, h0⟩
          exact hz s hs h0),
        if_neg (by
          intro hc
          exact hc hnd_idx)]
      simp only [hCL]
    refine ⟨_, hres, ?_, ?_⟩
    · rw [List.map_map]
      simp [Function.comp_def]
    · intro hsel hlen
      have hPdeg : ((existing.enum.map (fun pr =>
          ofList (lams.getD pr.1 0 * pr.2.share :: A pr.1))).sum).degree
          < ((t_new : ℕ) : WithBot ℕ) := by
        refine degree_list_sum_lt _ _ (by exact_mod_cast WithBot.bot_lt_coe t_new) ?_
        intro q hq
        rw [List.mem_map] at hq
        obtain ⟨pr, hpr, rfl⟩ := hq
        have := degree_ofList_lt (lams.getD pr.1 0 * pr.2.share :: A pr.1)
        rw [List.length_cons, hA pr.1] at this
        exact lt_of_lt_of_le this (by exact_mod_cast (by omega : t_new - 1 + 1 ≤ t_new))
      have hrec := recover_sel_mk t_new n (fun j => (existing.enum.map (fun pr =>
          eval_powers (lams.getD pr.1 0 * pr.2.share :: A pr.1) ((j : ℕ) : F))).sum)
        ((existing.enum.map (fun pr =>
          ofList (lams.getD pr.1 0 * pr.2.share :: A pr.1))).sum) sel hcast
        (by
          intro j
          dsimp only
          rw [eval_list_sum, List.map_map]
          refine congrArg List.sum (List.map_congr_left (fun pr hpr => ?_))
          exact eval_powers_eq _ _)
        hsel hlen ht1 hPdeg
      rw [hrec]
      have hsum0 : ((existing.enum.map (fun pr =>
          ofList (lams.getD pr.1 0 * pr.2.share :: A pr.1))).sum).eval 0 = s0 := by
        rw [eval_list_sum, List.map_map]
        have hmape : existing.enum.map (Polynomial.eval 0 ∘ (fun pr =>
            ofList (lams.getD pr.1 0 * pr.2.share :: A pr.1)))
            = existing.enum.map (fun pr => lams.getD pr.1 0 *
              p.eval ((existing.map (fun s => ((s.index : ℕ) : F))).getD pr.1 0)) := by
          refine List.map_congr_left (fun pr hpr => ?_)
          obtain ⟨hk, hlt, hget⟩ := enumFrom_mem_spec (⟨0, 0⟩ : ShareData F) existing 0 pr
            (by simpa using hpr)
          simp only [Nat.sub_zero] at hlt hget
          rw [Function.comp_apply, eval_ofList_cons_zero]
          congr 1
          rw [List.getD_eq_getElem _ _ (by simpa using hlt), List.getElem_map]
          rw [← hget, List.getD_eq_getElem _ _ hlt]
          exact hval existing[pr.1] (List.getElem_mem _)
        rw [hmape, enum_map_sum_eq_range existing (⟨0, 0⟩ : ShareData F)
          (fun pr => lams.getD pr.1 0 *
            p.eval ((existing.map (fun s => ((s.index : ℕ) : F))).getD pr.1 0))]
        rw [← hp0]
        have hinterp := compute_lagrange_interp
          (existing.map (fun s => ((s.index : ℕ) : F))) hneF hnd lams hCL p
          (by rw [List.length_map]; exact hdeg)
        rw [List.length_map] at hinterp
        exact hinterp.symm
      rw [hsum0]

/-- C7 counterexample: with new threshold 0 the claim asks the empty
selection to reconstruct, which errs; and on an empty share set (threshold
0 passes the size check) the call errs instead of returning records. -/
theorem C7_counterexample :
    (∃ res, adjust_threshold [(⟨1, (5 : ℚ)⟩ : ShareData ℚ)] 1 0 1 (fun _ => []) = .ok res ∧
      List.Subperm ([] : List (ShareData ℚ)) res ∧
      ([] : List (ShareData ℚ)).length = 0 ∧
      recover_secret_fft ([] : List (ShareData ℚ)) ≠ some (.ok 5)) ∧
    (∃ msg, adjust_threshold ([] : List (ShareData ℚ)) 0 1 1 (fun _ => []) = .error msg) := by
  refine ⟨⟨[⟨1, 5⟩], by
      simp [adjust_threshold, compute_lagrange_coefficients, dup_scan, lagrange_outer,
        lagrange_inner, eval_powers], ?_, rfl, fun h => ?_⟩,
    ⟨"lagrange coefficients failed", by
      simp [adjust_threshold, compute_lagrange_coefficients]⟩⟩
  · exact List.nil_subperm
  · have h2 : (some (.error (.InsufficientShares 1 0)) : Option (Except LagrangeError ℚ))
        = some (.ok 5) := h
    simp at h2

/-- C7 witness: resharing the single share (1, 5) of the constant rational
polynomial 5 from threshold 1 to threshold 1 with one new share. -/
theorem C7_witness : (1 : ℕ) ≤ [(⟨1, (5 : ℚ)⟩ : ShareData ℚ)].length ∧
    (∃ res, adjust_threshold [(⟨1, (5 : ℚ)⟩ : ShareData ℚ)] 1 1 1 (fun _ => []) = .ok res ∧
      res.map (fun s => s.index) = List.range' 1 1 ∧
      (List.Subperm [(⟨1, (5 : ℚ)⟩ : ShareData ℚ)] res →
        [(⟨1, (5 : ℚ)⟩ : ShareData ℚ)].length = 1 →
        recover_secret_fft [(⟨1, (5 : ℚ)⟩ : ShareData ℚ)] = some (.ok 5))) := by
  refine ⟨by simp, ?_⟩
  refine (C7_adjust_threshold 1 1 1 [⟨1, 5⟩] (fun _ => []) 5 (Polynomial.C 5) [⟨1, 5⟩]
    (fun i j _ _ h => Nat.cast_injective h)
    (by simp) (by simp)
    (by rw [Polynomial.degree_C (by norm_num : (5 : ℚ) ≠ 0)]; norm_num)
    (by simp)
    (by intro s hs; simp at hs; subst hs; simp)
    (fun i => rfl) (by simp) (le_refl 1)).2 (le_refl 1)

/-- C9: identity and invalid point rejection.  With the external dalek
primitives abstract, for every 32-byte input the deserialiser errs when
decompression fails or yields the identity, and returns a point exactly when
that point is the decompression of the bytes and is not the identity. -/
theorem C9_identity_rejection {Point : Type*} (decompress : List (Fin 256) → Option Point)
    (is_identity : Point → Bool) (bytes : List (Fin 256)) (hlen : bytes.length = 32) :
    (decompress bytes = none →
      deserialize_ristretto decompress is_identity bytes = .error "Invalid compressed point") ∧
    (∀ pt, decompress bytes = some pt → is_identity pt = true →
      deserialize_ristretto decompress is_identity bytes = .error "Invalid point: identity") ∧
    (∀ pt, deserialize_ristretto decompress is_identity bytes = .ok pt ↔
      (decompress bytes = some pt ∧ is_identity pt = false)) := by
  unfold deserialize_ristretto
  rw [if_neg (by simp [hlen])]
  refine ⟨fun hn => by rw [hn], fun pt hs hid => by rw [hs]; simp [hid], fun pt => ?_⟩
  cases hd : decompress bytes with
  | none => simp
  | some q =>
    by_cases hq : is_identity q
    · simp [hq]
      rintro rfl
      exact hq
    · simp only [eq_self_iff_true, hq, not_false_iff, if_pos, Option.some.injEq]
      constructor
      · rintro h
        cases h
        exact ⟨rfl, by simpa using hq⟩
      · rintro ⟨rfl, _⟩
        rfl

/-- C9 witness: a concrete abstract point type (booleans, `true` the sole
non-identity point) with a decompression that always returns `true`, on a
32-byte input. -/
theorem C9_witness :
    ((fun _ => some true : List (Fin 256) → Option Bool) (List.replicate 32 0) = none →
      deserialize_ristretto (fun _ => some true) (fun b => ! b) (List.replicate 32 0)
        = .error "Invalid compressed point") ∧
    (∀ pt, (fun _ => some true : List (Fin 256) → Option Bool) (List.replicate 32 0) = some pt →
      (! pt) = true →
      deserialize_ristretto (fun _ => some true) (fun b => ! b) (List.replicate 32 0)
        = .error "Invalid point: identity") ∧
    (∀ pt, deserialize_ristretto (fun _ => some true) (fun b => ! b) (List.replicate 32 0)
        = .ok pt ↔
      ((fun _ => some true : List (Fin 256) → Option Bool) (List.replicate 32 0) = some pt ∧
        (! pt) = false)) :=
  C9_identity_rejection (fun _ => some true) (fun b => ! b) (List.replicate 32 0) (by simp)

/-- C10: unchecked threshold lower bound.  The `create_secret_shares`
validation accepts exactly `threshold ≤ num_shares ≤ 1000` — in particular
`threshold = 0, num_shares = 0` passes — while the `usize` coefficient count
`threshold - 1` of `generate_key_shares` wraps to `2^64 - 1` at threshold 0
and equals the expected `threshold - 1` for every positive threshold. -/
theorem C10_threshold_underflow :
    create_secret_shares_param_check 0 0 = true ∧
    (∀ t n, create_secret_shares_param_check t n = true ↔ (t ≤ n ∧ n ≤ 1000)) ∧
    coeff_count_usize 0 = 2 ^ 64 - 1 ∧
    (∀ t, coeff_count_usize (t + 1) = t % 2 ^ 64) := by
  refine ⟨by decide, fun t n => ?_, by simp [coeff_count_usize], fun t => ?_⟩
  · simp [create_secret_shares_param_check]
  · simp only [coeff_count_usize]
    omega

end ZkThresh
